import Mathlib

/-!
Verification of the time-interval label index of `rennet`
(`rennet/utils/label_utils.py`), shallowly embedded in Lean 4.

Numeric values (`numpy` floats and Python ints) are modelled as exact
rationals `ℚ`; where the int-versus-float distinction itself matters
(the rate-conversion function `_convert_samplerate`), Python numbers are
modelled by the tagged type `PyNum` below.  Fallible code returns
`Except SLErr`.  The mutable instance state (`__slots__` of
`SequenceLabels`) is modelled by the structure `SL`, and the stateful
context managers `samplerate_as` / `min_start_as` by an explicit action
language `Act` with an interpreter `exec` that threads the state and an
exception flag.
-/

namespace Rennet

deriving instance DecidableEq for Except

/-- Error taxonomy of `label_utils.py` (each constructor corresponds to a
`raise` site in the source). -/
inductive SLErr where
  | lengthMismatch
  | shapeError
  | invalidRate
  | degenerateSegment
  | contiguityViolation
  | outOfRange
  deriving DecidableEq, Repr

/-- `np.round(x, d)`: rounding to `d` decimal digits, on exact rationals.
(`numpy` rounds half to even; the distinction only matters for values at
an exact half ulp of `10 ^ (-d)`, which no claim exercises.) -/
def npRound (d : ℕ) (q : ℚ) : ℚ := (⌊q * 10 ^ d + 1 / 2⌋ : ℤ) / 10 ^ d

/-- A `numpy` array has integer dtype when every entry is a Python int;
in the rational model: every entry has denominator 1. -/
def isIntArr (l : List ℚ) : Bool := l.all fun q => q.den == 1

/-- Insert into a sorted list, before the first element `y` with
`le x y` (stable, like `np.lexsort` for the zipped rows below). -/
def insertLe (le : β → β → Bool) (x : β) : List β → List β
  | [] => [x]
  | y :: ys => if le x y then x :: y :: ys else y :: insertLe le x ys

/-- Insertion sort (stable); models the sorting of segments at
construction and `np.unique`'s sorting of breakpoints. -/
def sortLe (le : β → β → Bool) (l : List β) : List β := l.foldr (insertLe le) []

/-- Remove adjacent duplicates of a sorted list (second half of
`np.unique`). -/
def dedupSorted : List ℚ → List ℚ
  | [] => []
  | [x] => [x]
  | x :: y :: r => if x = y then dedupSorted (y :: r) else x :: dedupSorted (y :: r)

/-- `np.unique` on a flat array: sorted list of the distinct values. -/
def npUnique (l : List ℚ) : List ℚ := dedupSorted (sortLe (fun a b => a ≤ b) l)

/-- Sort key of `SequenceLabels.__init__`: primarily by start, ties broken
by end (`np.lexsort` on the reversed columns). -/
def segLeB (p q : ℚ × ℚ) : Bool := p.1 < q.1 || (p.1 == q.1 && p.2 ≤ q.2)

/-- Sort the zipped `(segment, label)` rows by segment key; `np.lexsort`
produces the permutation, which the source applies to both arrays. -/
def sortRows (l : List ((ℚ × ℚ) × α)) : List ((ℚ × ℚ) × α) :=
  sortLe (fun a b => segLeB a.1 b.1) l

/-- The `__slots__` state of a `SequenceLabels` instance:
`_starts_ends` (private sorted copy, at `_orig_samplerate`), `labels`,
`_orig_samplerate`, `_samplerate`, `_minstart_at_orig_sr`. -/
structure SL (α : Type) where
  ses : List (ℚ × ℚ)
  labels : List α
  origSr : ℚ
  sr : ℚ
  minstartOrig : ℚ
  deriving DecidableEq, Repr

/-- `SequenceLabels.__init__`: validates (length mismatch, shape — an
empty input has `numpy` shape `(0,)` and fails the 2-wide pair check —
rate, degenerate segments, in source order), sorts rows by
`(start, end)`, and records the minimum start.  All-or-nothing: an error
leaves no instance. -/
def slInit (se : List (ℚ × ℚ)) (labels : List α) (samplerate : ℚ) :
    Except SLErr (SL α) :=
  if se.length ≠ labels.length then .error .lengthMismatch
  else if se.isEmpty then .error .shapeError
  else if samplerate ≤ 0 then .error .invalidRate
  else if se.any (fun p => p.2 - p.1 ≤ 0) then .error .degenerateSegment
  else
    let rows := sortRows (se.zip labels)
    .ok { ses := rows.map Prod.fst
          labels := rows.map Prod.snd
          origSr := samplerate
          sr := samplerate
          minstartOrig := ((rows.map Prod.fst).headD (0, 0)).1 }

/-- The in-place shift performed by the `starts_ends` property when the
anchor override is active: `starts_ends -= (starts_ends[0,0] -
self._minstart_at_orig_sr)` is `numpy` in-place subtraction on (an alias
of) the stored `_starts_ends`, so it MUTATES the instance state.  (The
empty case cannot arise for a constructed instance.) -/
def startsEndsShift (st : SL α) : SL α :=
  match st.ses with
  | [] => st
  | p :: _ =>
    if st.minstartOrig ≠ p.1 then
      { st with ses := st.ses.map fun q =>
          (q.1 - (p.1 - st.minstartOrig), q.2 - (p.1 - st.minstartOrig)) }
    else st

/-- Value returned by the `starts_ends` property: the (possibly shifted)
stored segments converted from `_orig_samplerate` to `_samplerate`.
Over ℚ both conversion branches of `_convert_samplerate` multiply by
`to / from`; the `rate <= 0` guard cannot fire for a constructed
instance, so the value-level model is total. -/
def seVal (st : SL α) : List (ℚ × ℚ) :=
  (startsEndsShift st).ses.map fun p =>
    (p.1 * (st.sr / st.origSr), p.2 * (st.sr / st.origSr))

/-- Value of the `min_start` property: `_minstart_at_orig_sr` converted
to the current samplerate. -/
def minStartVal (st : SL α) : ℚ := st.minstartOrig * (st.sr / st.origSr)

/-- Value of the `max_end` property: last entry of `starts_ends` (the
end of the last segment in sorted order — not necessarily the maximum
end). -/
def maxEndVal (st : SL α) : ℚ := ((seVal st).getLastD (0, 0)).2

/-- The contiguity test `np.any(se[1:, 0] != se[:-1, 1])` negated:
every end equals the next start. -/
def flatB : List (ℚ × ℚ) → Bool
  | [] => true
  | [_] => true
  | p :: q :: r => (p.2 == q.1) && flatB (q :: r)

/-- `SequenceLabels._flattened_indices(return_bins=True)` on the value of
`starts_ends`.  Non-flat path: breakpoints are `np.unique` of all
boundary values; each segment `j` tags every candidate bin between the
breakpoint index of its start and that of its end (the double loop over
`enumerate(sorting_indices)`, which produces the tag lists in increasing
`j`).  Flat path: one bin per segment.  Returns the breakpoint list and
the per-bin tag lists. -/
def flattenedIndices (se : List (ℚ × ℚ)) : List ℚ × List (List ℕ) :=
  if flatB se then
    (se.map Prod.fst ++ [(se.getLastD (0, 0)).2],
     (List.range se.length).map fun i => [i])
  else
    let bins := npUnique (se.flatMap fun p => [p.1, p.2])
    (bins,
     (List.range (bins.length - 1)).map fun i =>
       (List.range se.length).filter fun j =>
         bins.indexOf (se.getD j (0, 0)).1 ≤ i && i < bins.indexOf (se.getD j (0, 0)).2)

/-- A result entry of the base-class `labels_at`: either the
caller-supplied `default_label` placeholder (an opaque Python object,
type `δ`), or a computed tuple of labels. -/
inductive LAt (α δ : Type) where
  | deflt (d : δ)
  | tup (l : List α)
  deriving DecidableEq, Repr

/-- Query-time argument: a scalar gets wrapped into a one-element batch
(`if not isinstance(ends, Iterable): ends = [ends]`). -/
inductive EndsArg where
  | scalar (t : ℚ)
  | batch (l : List ℚ)
  deriving DecidableEq, Repr

def EndsArg.toList : EndsArg → List ℚ
  | .scalar t => [t]
  | .batch l => l

/-- `np.searchsorted(bins, t, side='left')` for a sorted `bins`: the
number of elements strictly less than `t`. -/
def searchLeft (bins : List ℚ) (t : ℚ) : ℕ := bins.countP fun b => decide (b < t)

/-- Conditional rounding of a scalar: applied when either the query or
the breakpoint array is non-integral. -/
def roundIf (b : Bool) (d : ℕ) (q : ℚ) : ℚ := if b then npRound d q else q

/-- Conditional elementwise rounding of an array. -/
def roundIfArr (b : Bool) (d : ℕ) (l : List ℚ) : List ℚ :=
  if b then l.map (npRound d) else l

/-- `SequenceLabels.labels_at` (with `samplerate=None`, as every claim
queries it): flatten, round breakpoints and query points when either
array is non-integral, binary-search each query, and produce either the
tuple of labels of the tagged segments or `default_label`.  The
`np.unique(bin_idx, return_inverse=True)` memoisation of the source is
value-preserving (it computes the same entry once per distinct bin
index), so the embedding computes each entry directly. -/
def labelsAtBase (st : SL α) (ends : EndsArg) (dflt : δ) (rounded : ℕ := 10)
    [Inhabited α] : List (LAt α δ) :=
  let el := ends.toList
  let fi := flattenedIndices (seVal st)
  let bins := fi.1
  let tags := fi.2
  let doRound := !(isIntArr el && isIntArr bins)
  let rb := roundIfArr doRound rounded bins
  let re := (roundIfArr doRound rounded el)
  re.map fun t =>
    let idx := searchLeft rb t
    if idx ≠ 0 ∧ idx ≠ rb.length then
      let l := tags.getD (idx - 1) []
      if l.length = 1 then .tup (l.map fun j => st.labels.getD j default)
      else if 1 < l.length then .tup (l.map fun j => st.labels.getD j default)
      else .deflt dflt
    else .deflt dflt

/-- `ContiguousSequenceLabels.__init__`: the base init (whose errors
propagate), then the contiguity check on the `starts_ends` property
value; on failure the exception leaves no instance. -/
def csInit (se : List (ℚ × ℚ)) (labels : List α) (samplerate : ℚ) :
    Except SLErr (SL α) :=
  match slInit se labels samplerate with
  | .error e => .error e
  | .ok st => if flatB (seVal st) then .ok st else .error .contiguityViolation

/-- Default-label policy of `ContiguousSequenceLabels.labels_at`,
dispatched by the source on the value / type of `default_label`:
`'raise'`, `'zeros'`, `'ones'`, a value of the labels dtype, or any
other object (the fallback `tolist` path). -/
inductive CPolicy (α δ : Type) where
  | raiseOut
  | zeros
  | ones
  | fillLab (v : α)
  | fillOther (d : δ)
  deriving DecidableEq, Repr

/-- A result entry of the contiguous `labels_at`: a label from the
(numeric) result array, or — on the fallback path — the opaque
`default_label` object. -/
inductive CRes (α δ : Type) where
  | lab (v : α)
  | obj (d : δ)
  deriving DecidableEq, Repr

def CPolicy.fill [Zero α] [One α] : CPolicy α δ → CRes α δ
  | .raiseOut => .lab 0
  | .zeros => .lab 0
  | .ones => .lab 1
  | .fillLab v => .lab v
  | .fillOther d => .obj d

/-- The breakpoints of the contiguous `labels_at`:
`np.append(se[:, 0], se[-1, -1])` on the `starts_ends` value. -/
def contBins (st : SL α) : List ℚ :=
  (seVal st).map Prod.fst ++ [((seVal st).getLastD (0, 0)).2]

/-- Whether the contiguous `labels_at` rounds: either array has
non-integer dtype. -/
def contDr (st : SL α) (el : List ℚ) : Bool :=
  !(isIntArr el && isIntArr (contBins st))

/-- `ContiguousSequenceLabels.labels_at` (with `samplerate=None`): bins
are the starts plus the final end; queries landing at index `0` or
`len(bins)` are outside; if any is outside, policy `'raise'` throws
`KeyError`, otherwise a zero-initialised result array is filled with the
labels of the in-range queries and the policy's fill value elsewhere. -/
def contLabelsAt [Zero α] [One α] [Inhabited α] (st : SL α) (ends : EndsArg)
    (pol : CPolicy α δ) (rounded : ℕ := 10) : Except SLErr (List (CRes α δ)) :=
  let el := ends.toList
  let rb := roundIfArr (contDr st el) rounded (contBins st)
  let re := roundIfArr (contDr st el) rounded el
  let idxs := re.map (searchLeft rb)
  if idxs.any fun ix => ix == 0 || ix == rb.length then
    match pol with
    | .raiseOut => .error .outOfRange
    | _ => .ok (idxs.map fun ix =>
        if ix = 0 ∨ ix = rb.length then pol.fill
        else .lab (st.labels.getD (ix - 1) default))
  else .ok (idxs.map fun ix => .lab (st.labels.getD (ix - 1) default))

/-- A Python number: an `int` or a `float` (floats modelled as exact
rationals).  Distinguishing the two is what the int-preservation clause
of `_convert_samplerate` is about. -/
inductive PyNum where
  | i (n : ℤ)
  | f (q : ℚ)
  deriving DecidableEq, Repr

/-- Numeric value of a Python number (Python compares ints and floats by
value). -/
def PyNum.val : PyNum → ℚ
  | .i n => (n : ℚ)
  | .f q => q

/-- Python multiplication: `int * int` is `int`, anything else floats. -/
def pmul : PyNum → PyNum → PyNum
  | .i a, .i b => .i (a * b)
  | .i a, .f q => .f (a * q)
  | .f q, .i b => .f (q * b)
  | .f a, .f b => .f (a * b)

/-- Python true division `/`: always a float. -/
def ptdiv (x y : PyNum) : PyNum := .f (x.val / y.val)

/-- Python floor division `//`: floor of the exact quotient, an `int`
only when both operands are ints.  (Division by zero cannot arise
behind the positive-rate guard.) -/
def pfdiv : PyNum → PyNum → PyNum
  | .i a, .i b => .i ⌊(a : ℚ) / (b : ℚ)⌋
  | x, y => .f (⌊x.val / y.val⌋ : ℤ)

/-- Python modulo `%`: `a - b * (a // b)`. -/
def pmod (x y : PyNum) : PyNum :=
  match x, y with
  | .i a, .i b => .i (a - b * ⌊(a : ℚ) / (b : ℚ)⌋)
  | _, _ => .f (x.val - y.val * (⌊x.val / y.val⌋ : ℤ))

/-- `SequenceLabels._convert_samplerate(value, from, to)`: guard both
rates positive; identity when equal; integer multiplication by
`to // from` when `to > from` divides evenly; else multiply by the float
`to / from`. -/
def convertSr (value fromSr toSr : PyNum) : Except SLErr PyNum :=
  if toSr.val ≤ 0 ∨ fromSr.val ≤ 0 then .error .invalidRate
  else if toSr.val == fromSr.val then .ok value
  else if fromSr.val < toSr.val ∧ (pmod toSr fromSr).val = 0 then
    .ok (pmul value (pfdiv toSr fromSr))
  else .ok (pmul value (ptdiv toSr fromSr))

/-- Client programs over one instance, for the scoped-context claims:
read the `starts_ends` property (for its state effect), observe the
current `samplerate` or `min_start`, raise, sequence, or enter a
`samplerate_as` / `min_start_as` scope around a sub-program. -/
inductive Act where
  | readSE
  | probeSr
  | probeMin
  | raiseErr
  | seq (a b : Act)
  | srAs (new : Option ℚ) (body : Act)
  | msAs (new : ℚ) (rate : Option ℚ) (body : Act)

/-- Interpreter: returns the final state, the list of observed probe
values, and whether an exception is propagating.  `samplerate_as`
computes the effective rate (`None` keeps the contextually most recent
one), rejects non-positive rates before entering, and restores the old
rate in `finally`; `min_start_as` wraps a `samplerate_as`, converts the
new anchor to `_orig_samplerate`, and restores the old anchor in
`finally`. -/
def Act.exec : Act → SL α → SL α × List ℚ × Bool
  | .readSE, st => (startsEndsShift st, [], false)
  | .probeSr, st => (st, [st.sr], false)
  | .probeMin, st => (st, [minStartVal st], false)
  | .raiseErr, st => (st, [], true)
  | .seq a b, st =>
    let r1 := a.exec st
    if r1.2.2 then r1
    else
      let r2 := b.exec r1.1
      (r2.1, r1.2.1 ++ r2.2.1, r2.2.2)
  | .srAs new body, st =>
    let oldSr := st.sr
    let nsr := new.getD oldSr
    if nsr ≤ 0 then (st, [], true)
    else
      let r := body.exec { st with sr := nsr }
      ({ r.1 with sr := oldSr }, r.2)
  | .msAs new rate body, st =>
    let oldStart := st.minstartOrig
    let oldSr := st.sr
    let nsr := rate.getD oldSr
    if nsr ≤ 0 then (st, [], true)
    else if st.origSr ≤ 0 then (st, [], true)
    else
      let m := new * (st.origSr / nsr)
      let r := body.exec { st with sr := nsr, minstartOrig := m }
      ({ r.1 with minstartOrig := oldStart, sr := oldSr }, r.2)

/-! ### Sorting infrastructure lemmas -/

theorem insertLe_perm (le : β → β → Bool) (x : β) (l : List β) :
    (insertLe le x l).Perm (x :: l) := by
  induction l with
  | nil => simp [insertLe]
  | cons y ys ih =>
    by_cases h : le x y
    · simp [insertLe, h]
    · simp only [insertLe, h, if_false]
      exact (ih.cons y).trans (List.Perm.swap x y ys)

theorem sortLe_perm (le : β → β → Bool) (l : List β) : (sortLe le l).Perm l := by
  induction l with
  | nil => simp [sortLe]
  | cons x xs ih =>
    have : sortLe le (x :: xs) = insertLe le x (sortLe le xs) := rfl
    rw [this]
    exact (insertLe_perm le x (sortLe le xs)).trans (ih.cons x)

theorem insertLe_pairwise (le : β → β → Bool)
    (htot : ∀ a b, le a b = true ∨ le b a = true)
    (htrans : ∀ a b c, le a b = true → le b c = true → le a c = true)
    (x : β) {l : List β} (hl : l.Pairwise (le · · = true)) :
    (insertLe le x l).Pairwise (le · · = true) := by
  induction l with
  | nil => simp [insertLe]
  | cons y ys ih =>
    rcases List.pairwise_cons.mp hl with ⟨hy, hys⟩
    by_cases h : le x y = true
    · simp only [insertLe, h, if_true]
      refine List.pairwise_cons.mpr ⟨?_, hl⟩
      intro z hz
      rcases List.mem_cons.mp hz with rfl | hz
      · exact h
      · exact htrans x y z h (hy z hz)
    · simp only [insertLe, h, if_false]
      refine List.pairwise_cons.mpr ⟨?_, ih hys⟩
      intro z hz
      have hz2 : z ∈ x :: ys := (insertLe_perm le x ys).mem_iff.mp hz
      rcases List.mem_cons.mp hz2 with rfl | hz2
      · rcases htot z y with hc | hc
        · exact absurd hc h
        · exact hc
      · exact hy z hz2

theorem sortLe_pairwise (le : β → β → Bool)
    (htot : ∀ a b, le a b = true ∨ le b a = true)
    (htrans : ∀ a b c, le a b = true → le b c = true → le a c = true)
    (l : List β) : (sortLe le l).Pairwise (le · · = true) := by
  induction l with
  | nil => simp [sortLe]
  | cons x xs ih => exact insertLe_pairwise le htot htrans x ih

theorem mem_dedupSorted {x : ℚ} : ∀ {l : List ℚ}, x ∈ dedupSorted l ↔ x ∈ l
  | [] => by simp [dedupSorted]
  | [y] => by simp [dedupSorted]
  | y :: z :: r => by
    by_cases h : y = z
    · subst h
      have he : dedupSorted (y :: y :: r) = dedupSorted (y :: r) := by
        simp [dedupSorted]
      rw [he, mem_dedupSorted (l := y :: r)]
      simp [List.mem_cons]
    · simp only [dedupSorted, if_neg h, List.mem_cons]
      rw [mem_dedupSorted (l := z :: r)]
      simp [List.mem_cons]

theorem dedupSorted_pairwise : ∀ {l : List ℚ}, l.Pairwise (· ≤ ·) →
    (dedupSorted l).Pairwise (· < ·)
  | [], _ => by simp [dedupSorted]
  | [y], _ => by simp [dedupSorted]
  | y :: z :: r, hl => by
    rcases List.pairwise_cons.mp hl with ⟨hy, hzr⟩
    by_cases h : y = z
    · simpa [dedupSorted, if_pos h] using dedupSorted_pairwise hzr
    · simp only [dedupSorted, if_neg h]
      refine List.pairwise_cons.mpr ⟨?_, dedupSorted_pairwise hzr⟩
      intro w hw
      have hw2 : w ∈ z :: r := mem_dedupSorted.mp hw
      rcases List.mem_cons.mp hw2 with rfl | hw2
      · exact lt_of_le_of_ne (hy w (List.mem_cons_self _ _)) h
      · have hzw : z ≤ w := (List.pairwise_cons.mp hzr).1 w hw2
        have hyz : y < z := lt_of_le_of_ne (hy z (List.mem_cons_self _ _)) h
        exact lt_of_lt_of_le hyz hzw

theorem npUnique_pairwise (l : List ℚ) : (npUnique l).Pairwise (· < ·) := by
  refine dedupSorted_pairwise ?_
  have h := sortLe_pairwise (fun a b : ℚ => decide (a ≤ b))
    (fun a b => by rcases le_total a b with h | h <;> simp [h])
    (fun a b c hab hbc => by
      simp only [decide_eq_true_eq] at hab hbc ⊢
      exact le_trans hab hbc) l
  exact h.imp (by simp)

theorem mem_npUnique {x : ℚ} {l : List ℚ} : x ∈ npUnique l ↔ x ∈ l :=
  mem_dedupSorted.trans (sortLe_perm _ l).mem_iff

/-- The boolean contiguity test agrees with the `Chain'` statement "each
end equals the next start". -/
theorem flatB_iff : ∀ {l : List (ℚ × ℚ)},
    flatB l = true ↔ l.Chain' (fun p q => p.2 = q.1)
  | [] => by simp [flatB]
  | [p] => by simp [flatB]
  | p :: q :: r => by
    rw [List.chain'_cons]
    simp only [flatB, Bool.and_eq_true, beq_iff_eq]
    rw [flatB_iff (l := q :: r)]

/-! ### Lemmas about sorted breakpoint lists and `searchsorted` -/

theorem pairwise_lt_getElem {l : List ℚ} (h : l.Pairwise (· < ·))
    {i j : ℕ} (hi : i < l.length) (hj : j < l.length) (hij : i < j) :
    l[i] < l[j] := (List.pairwise_iff_getElem.mp h) i j hi hj hij

theorem headD_mem {l : List γ} (hne : l ≠ []) (d : γ) : l.headD d ∈ l := by
  cases l with
  | nil => exact absurd rfl hne
  | cons a t => simp

theorem getLastD_mem {l : List γ} (hne : l ≠ []) (d : γ) : l.getLastD d ∈ l := by
  cases l with
  | nil => exact absurd rfl hne
  | cons a t =>
    rw [List.getLastD_cons]
    exact List.getLastD_mem_cons t a

theorem pairwise_le_headD {l : List ℚ} (h : l.Pairwise (· ≤ ·)) {x : ℚ}
    (hx : x ∈ l) (d : ℚ) : l.headD d ≤ x := by
  cases l with
  | nil => simp at hx
  | cons a t =>
    rcases List.mem_cons.mp hx with rfl | hx
    · simp
    · simpa using (List.pairwise_cons.mp h).1 x hx

theorem pairwise_le_getLastD {l : List ℚ} (h : l.Pairwise (· ≤ ·)) {x : ℚ}
    (hx : x ∈ l) (d : ℚ) : x ≤ l.getLastD d := by
  induction l generalizing d with
  | nil => simp at hx
  | cons a t ih =>
    rw [List.getLastD_cons]
    rcases List.mem_cons.mp hx with rfl | hx
    · cases t with
      | nil => simp
      | cons b t2 =>
        have hmem : (b :: t2).getLastD x ∈ x :: b :: t2 := List.getLastD_mem_cons _ _
        rcases List.mem_cons.mp hmem with he | hmem
        · exact le_of_eq he.symm
        · exact (List.pairwise_cons.mp h).1 _ hmem
    · exact ih (List.pairwise_cons.mp h).2 hx a

theorem countP_of_sorted {p : ℚ → Bool}
    (hp : ∀ x y : ℚ, x < y → p y = true → p x = true) :
    ∀ {l : List ℚ}, l.Pairwise (· < ·) → ∀ i, (hi : i < l.length) →
      (p l[i] = true ↔ i < l.countP p) := by
  intro l
  induction l with
  | nil => intro _ i hi; simp at hi
  | cons x xs ih =>
    intro hl i hi
    rcases List.pairwise_cons.mp hl with ⟨hx, hxs⟩
    rw [List.countP_cons]
    cases i with
    | zero =>
      simp only [List.getElem_cons_zero]
      constructor
      · intro hpx; simp [hpx]
      · intro hpos
        by_contra hpx
        rw [if_neg hpx, Nat.add_zero] at hpos
        rcases List.countP_pos_iff.mp hpos with ⟨a, ha, hpa⟩
        exact hpx (hp x a (hx a ha) hpa)
    | succ j =>
      simp only [List.getElem_cons_succ]
      have hj : j < xs.length := by simpa using Nat.lt_of_succ_lt_succ hi
      by_cases hpx : p x = true
      · rw [if_pos hpx, ih hxs j hj]
        omega
      · rw [if_neg hpx]
        have hzero : xs.countP p = 0 := by
          rw [List.countP_eq_zero]
          intro a ha hpa
          exact hpx (hp x a (hx a ha) hpa)
        have hpj : ¬ p xs[j] = true := by
          intro hpj
          exact hpx (hp x _ (hx _ (List.getElem_mem hj)) hpj)
        simp [hzero, hpj]

theorem indexOf_le_iff {l : List ℚ} (h : l.Pairwise (· < ·)) {v : ℚ}
    (hv : v ∈ l) {i : ℕ} (hi : i < l.length) :
    l.indexOf v ≤ i ↔ v ≤ l[i] := by
  have hlt : l.indexOf v < l.length := List.indexOf_lt_length.mpr hv
  have hval : l[l.indexOf v] = v := List.getElem_indexOf hlt
  constructor
  · intro hle
    rcases lt_or_eq_of_le hle with hlt2 | heq
    · exact le_of_lt (hval ▸ pairwise_lt_getElem h hlt hi hlt2)
    · subst heq
      exact le_of_eq hval.symm
  · intro hle
    by_contra hgt
    push_neg at hgt
    have hd := pairwise_lt_getElem h hi hlt hgt
    rw [hval] at hd
    exact absurd hle (not_le.mpr hd)

theorem lt_indexOf_iff {l : List ℚ} (h : l.Pairwise (· < ·)) {v : ℚ}
    (hv : v ∈ l) {i : ℕ} (hi : i < l.length) :
    i < l.indexOf v ↔ l[i] < v := by
  constructor
  · intro hlt
    by_contra hge
    push_neg at hge
    exact absurd ((indexOf_le_iff h hv hi).mpr hge) (not_le.mpr hlt)
  · intro hlt
    by_contra hge
    push_neg at hge
    exact absurd hlt (not_lt.mpr ((indexOf_le_iff h hv hi).mp hge))

theorem searchLeft_eq_zero_iff {b : List ℚ} (hb : b.Pairwise (· ≤ ·))
    (hne : b ≠ []) {t : ℚ} : searchLeft b t = 0 ↔ t ≤ b.headD 0 := by
  unfold searchLeft
  rw [List.countP_eq_zero]
  constructor
  · intro h
    have := h _ (headD_mem hne 0)
    simpa using this
  · intro h x hx
    simp only [decide_eq_true_eq, not_lt]
    exact le_trans h (pairwise_le_headD hb hx 0)

theorem searchLeft_eq_length_iff {b : List ℚ} (hb : b.Pairwise (· ≤ ·))
    (hne : b ≠ []) {t : ℚ} : searchLeft b t = b.length ↔ b.getLastD 0 < t := by
  unfold searchLeft
  rw [List.countP_eq_length]
  constructor
  · intro h
    have := h _ (getLastD_mem hne 0)
    simpa using this
  · intro h x hx
    simp only [decide_eq_true_eq]
    exact lt_of_le_of_lt (pairwise_le_getLastD hb hx 0) h

theorem searchLeft_eq_of_between {b : List ℚ} (hb : b.Pairwise (· < ·))
    {t : ℚ} {j : ℕ} (hj : j + 1 < b.length)
    (h1 : b[j] < t) (h2 : t ≤ b[j+1]) :
    searchLeft b t = j + 1 := by
  have hmono : ∀ x y : ℚ, x < y → decide (y < t) = true → decide (x < t) = true := by
    intro x y hxy hyt
    simp only [decide_eq_true_eq] at hyt ⊢
    exact lt_trans hxy hyt
  have c1 := (countP_of_sorted hmono hb j (by omega)).mp (by simpa using h1)
  have c2 : ¬ (j + 1 < b.countP fun x => decide (x < t)) := by
    intro hc
    have := (countP_of_sorted hmono hb (j+1) hj).mpr hc
    simp only [decide_eq_true_eq] at this
    exact absurd h2 (not_le.mpr this)
  unfold searchLeft
  omega

theorem partition_cover {b : List ℚ} (hb : b.Pairwise (· < ·)) (hne : b ≠ [])
    {t : ℚ} (h1 : b.headD 0 ≤ t) (h2 : t < b.getLastD 0) :
    ∃ i, ∃ h : i + 1 < b.length, b[i] ≤ t ∧ t < b[i+1] := by
  have hmono : ∀ x y : ℚ, x < y → decide (y ≤ t) = true → decide (x ≤ t) = true := by
    intro x y hxy hyt
    simp only [decide_eq_true_eq] at hyt ⊢
    exact le_of_lt (lt_of_lt_of_le hxy hyt)
  set c := b.countP fun x => decide (x ≤ t) with hc
  have hble : b.Pairwise (· ≤ ·) := hb.imp le_of_lt
  have hpos : 0 < c := by
    rw [hc]
    refine List.countP_pos_iff.mpr ⟨b.headD 0, headD_mem hne 0, by simpa using h1⟩
  have hlen : c < b.length := by
    rcases Nat.lt_or_ge c b.length with h | h
    · exact h
    · exfalso
      have hcl : c = b.length := le_antisymm (List.countP_le_length _) h
      have hall := List.countP_eq_length.mp hcl
      have := hall _ (getLastD_mem hne 0)
      simp only [decide_eq_true_eq] at this
      exact absurd h2 (not_lt.mpr this)
  refine ⟨c - 1, by omega, ?_, ?_⟩
  · have := (countP_of_sorted hmono hb (c - 1) (by omega)).mpr (by omega)
    simpa using this
  · have hnc : ¬ (c - 1 + 1 < c) := by omega
    have := (countP_of_sorted hmono hb (c - 1 + 1) (by omega)).not.mpr hnc
    simpa using this

theorem partition_unique {b : List ℚ} (hb : b.Pairwise (· < ·)) {t : ℚ}
    {i j : ℕ} (hi : i + 1 < b.length) (hj : j + 1 < b.length)
    (h1 : b[i] ≤ t) (h2 : t < b[i+1])
    (h3 : b[j] ≤ t) (h4 : t < b[j+1]) : i = j := by
  by_contra hne
  rcases Nat.lt_or_ge i j with hij | hij
  · have hle : b[i+1] ≤ b[j] := by
      rcases Nat.lt_or_ge (i+1) j with h | h
      · exact le_of_lt (pairwise_lt_getElem hb (by omega) (by omega) h)
      · have : i + 1 = j := by omega
        subst this
        exact le_refl _
    linarith
  · have hij2 : j < i := by omega
    have hle : b[j+1] ≤ b[i] := by
      rcases Nat.lt_or_ge (j+1) i with h | h
      · exact le_of_lt (pairwise_lt_getElem hb (by omega) (by omega) h)
      · have : j + 1 = i := by omega
        subst this
        exact le_refl _
    linarith

/-! ### Construction invariants -/

/-- The sort order re-established at construction: start ascending, ties in
start broken by end ascending. -/
def segLe (p q : ℚ × ℚ) : Prop := p.1 < q.1 ∨ (p.1 = q.1 ∧ p.2 ≤ q.2)

theorem segLeB_iff {p q : ℚ × ℚ} : segLeB p q = true ↔ segLe p q := by
  simp [segLeB, segLe]

theorem segLeB_total (p q : ℚ × ℚ) : segLeB p q = true ∨ segLeB q p = true := by
  rw [segLeB_iff, segLeB_iff]
  rcases lt_trichotomy p.1 q.1 with h | h | h
  · exact Or.inl (Or.inl h)
  · rcases le_total p.2 q.2 with h2 | h2
    · exact Or.inl (Or.inr ⟨h, h2⟩)
    · exact Or.inr (Or.inr ⟨h.symm, h2⟩)
  · exact Or.inr (Or.inl h)

theorem segLeB_trans (p q r : ℚ × ℚ) (h1 : segLeB p q = true)
    (h2 : segLeB q r = true) : segLeB p r = true := by
  rw [segLeB_iff] at h1 h2 ⊢
  rcases h1 with h1 | ⟨h1a, h1b⟩ <;> rcases h2 with h2 | ⟨h2a, h2b⟩
  · exact Or.inl (lt_trans h1 h2)
  · exact Or.inl (h2a ▸ h1)
  · exact Or.inl (h1a ▸ h2)
  · exact Or.inr ⟨h1a.trans h2a, le_trans h1b h2b⟩

theorem sortRows_pairwise (l : List ((ℚ × ℚ) × α)) :
    (sortRows l).Pairwise (fun a b => segLe a.1 b.1) := by
  have h := sortLe_pairwise (fun a b : (ℚ × ℚ) × α => segLeB a.1 b.1)
    (fun a b => segLeB_total a.1 b.1)
    (fun a b c => segLeB_trans a.1 b.1 c.1) l
  exact h.imp (fun hab => segLeB_iff.mp hab)

theorem slInit_ok {se : List (ℚ × ℚ)} {ls : List α} {sr : ℚ} {st : SL α}
    (h : slInit se ls sr = .ok st) :
    st.ses = (sortRows (se.zip ls)).map Prod.fst ∧
    st.labels = (sortRows (se.zip ls)).map Prod.snd ∧
    st.origSr = sr ∧ st.sr = sr ∧
    st.minstartOrig = (st.ses.headD (0, 0)).1 ∧
    se.length = ls.length ∧ se ≠ [] ∧ 0 < sr ∧
    (∀ p ∈ se, p.1 < p.2) := by
  unfold slInit at h
  split_ifs at h with h1 h2 h3 h4
  simp only [Except.ok.injEq] at h
  subst h
  refine ⟨rfl, rfl, rfl, rfl, rfl, by omega, by simpa using h2, by linarith [not_le.mp h3], ?_⟩
  intro p hp
  rw [Bool.not_eq_true, List.any_eq_false] at h4
  have := h4 p hp
  simp only [decide_eq_true_eq, not_le] at this
  linarith

theorem slInit_ses_pairwise {se : List (ℚ × ℚ)} {ls : List α} {sr : ℚ}
    {st : SL α} (h : slInit se ls sr = .ok st) : st.ses.Pairwise segLe := by
  rw [(slInit_ok h).1]
  exact List.pairwise_map.mpr (sortRows_pairwise (se.zip ls))

theorem slInit_zip_perm {se : List (ℚ × ℚ)} {ls : List α} {sr : ℚ}
    {st : SL α} (h : slInit se ls sr = .ok st) :
    (st.ses.zip st.labels).Perm (se.zip ls) := by
  obtain ⟨h1, h2, -⟩ := slInit_ok h
  have hz : st.ses.zip st.labels = sortRows (se.zip ls) :=
    (List.zip_of_prod h1.symm h2.symm).symm
  rw [hz]
  exact sortLe_perm _ _

theorem slInit_ses_pos {se : List (ℚ × ℚ)} {ls : List α} {sr : ℚ}
    {st : SL α} (h : slInit se ls sr = .ok st) : ∀ p ∈ st.ses, p.1 < p.2 := by
  obtain ⟨h1, -, -, -, -, -, -, -, hpos⟩ := slInit_ok h
  intro p hp
  rw [h1] at hp
  rcases List.mem_map.mp hp with ⟨row, hrow, rfl⟩
  have : row ∈ se.zip ls := (sortLe_perm _ _).mem_iff.mp hrow
  exact hpos _ (List.of_mem_zip this).1

theorem slInit_ses_ne_nil {se : List (ℚ × ℚ)} {ls : List α} {sr : ℚ}
    {st : SL α} (h : slInit se ls sr = .ok st) : st.ses ≠ [] := by
  obtain ⟨h1, -, -, -, -, hlen, hne, -⟩ := slInit_ok h
  rw [h1]
  intro hc
  have hlz : (sortRows (se.zip ls)).length = (se.zip ls).length :=
    (sortLe_perm _ _).length_eq
  have : (se.zip ls).length = 0 := by
    have := congrArg List.length hc
    simpa [hlz] using this
  rw [List.length_zip, ← hlen, Nat.min_self] at this
  exact hne (List.length_eq_zero.mp this)

theorem slInit_labels_length {se : List (ℚ × ℚ)} {ls : List α} {sr : ℚ}
    {st : SL α} (h : slInit se ls sr = .ok st) :
    st.labels.length = st.ses.length := by
  obtain ⟨h1, h2, -⟩ := slInit_ok h
  rw [h1, h2]
  simp

theorem startsEndsShift_fresh {st : SL α}
    (hm : st.minstartOrig = (st.ses.headD (0, 0)).1) :
    startsEndsShift st = st := by
  unfold startsEndsShift
  split
  · rfl
  · next p rest heq =>
    rw [heq] at hm
    simp only [List.headD_cons] at hm
    simp [hm]

theorem seVal_fresh {st : SL α}
    (hm : st.minstartOrig = (st.ses.headD (0, 0)).1)
    (hsr : st.sr = st.origSr) (hpos : 0 < st.origSr) :
    seVal st = st.ses := by
  unfold seVal
  rw [startsEndsShift_fresh hm, hsr, div_self (ne_of_gt hpos)]
  simp

/-! ### Breakpoint-list facts, general (overlapping) path -/

theorem mem_boundary {se : List (ℚ × ℚ)} {x : ℚ} :
    x ∈ se.flatMap (fun p => [p.1, p.2]) ↔ ∃ p ∈ se, x = p.1 ∨ x = p.2 := by
  simp only [List.mem_flatMap, List.mem_cons, List.mem_singleton, List.not_mem_nil,
    or_false]

theorem minstart_le_boundary {se : List (ℚ × ℚ)} (hs : se.Pairwise segLe)
    (hpos : ∀ p ∈ se, p.1 < p.2) {x : ℚ}
    (hx : x ∈ se.flatMap fun p => [p.1, p.2]) : (se.headD (0, 0)).1 ≤ x := by
  rcases mem_boundary.mp hx with ⟨q, hq, hxq⟩
  have hstart : (se.headD (0, 0)).1 ≤ q.1 := by
    cases se with
    | nil => simp at hq
    | cons p rest =>
      rcases List.mem_cons.mp hq with rfl | hq
      · simp
      · have := (List.pairwise_cons.mp hs).1 q hq
        rcases this with h | ⟨h, -⟩
        · simpa using le_of_lt h
        · simpa using le_of_eq h
  rcases hxq with rfl | rfl
  · exact hstart
  · exact le_of_lt (lt_of_le_of_lt hstart (hpos q hq))

theorem bins_headD_general {se : List (ℚ × ℚ)} (hs : se.Pairwise segLe)
    (hpos : ∀ p ∈ se, p.1 < p.2) (hne : se ≠ []) :
    (npUnique (se.flatMap fun p => [p.1, p.2])).headD 0 = (se.headD (0, 0)).1 := by
  have hmB : (se.headD (0, 0)).1 ∈ se.flatMap fun p => [p.1, p.2] := by
    cases se with
    | nil => exact absurd rfl hne
    | cons p rest => exact mem_boundary.mpr ⟨p, List.mem_cons_self _ _, Or.inl (by simp)⟩
  have hmbins : (se.headD (0, 0)).1 ∈ npUnique (se.flatMap fun p => [p.1, p.2]) :=
    mem_npUnique.mpr hmB
  have hbne : npUnique (se.flatMap fun p => [p.1, p.2]) ≠ [] :=
    List.ne_nil_of_mem hmbins
  have hle : (npUnique (se.flatMap fun p => [p.1, p.2])).headD 0 ≤ (se.headD (0, 0)).1 :=
    pairwise_le_headD ((npUnique_pairwise _).imp le_of_lt) hmbins 0
  have hge : (se.headD (0, 0)).1 ≤ (npUnique (se.flatMap fun p => [p.1, p.2])).headD 0 :=
    minstart_le_boundary hs hpos (mem_npUnique.mp (headD_mem hbne 0))
  exact le_antisymm hle hge

theorem bins_lastD_general {se : List (ℚ × ℚ)} (hpos : ∀ p ∈ se, p.1 < p.2)
    (hne : se ≠ []) :
    (∃ p ∈ se, (npUnique (se.flatMap fun p => [p.1, p.2])).getLastD 0 = p.2) ∧
    ∀ p ∈ se, p.2 ≤ (npUnique (se.flatMap fun p => [p.1, p.2])).getLastD 0 := by
  set bins := npUnique (se.flatMap fun p => [p.1, p.2]) with hbins
  have hball : ∀ x ∈ se.flatMap (fun p => [p.1, p.2]), x ≤ bins.getLastD 0 := by
    intro x hx
    exact pairwise_le_getLastD ((npUnique_pairwise _).imp le_of_lt)
      (mem_npUnique.mpr hx) 0
  have hbne : bins ≠ [] := by
    cases se with
    | nil => exact absurd rfl hne
    | cons p rest =>
      exact List.ne_nil_of_mem (mem_npUnique.mpr
        (mem_boundary.mpr ⟨p, List.mem_cons_self _ _, Or.inl rfl⟩))
  have hlmem : bins.getLastD 0 ∈ se.flatMap fun p => [p.1, p.2] :=
    mem_npUnique.mp (getLastD_mem hbne 0)
  constructor
  · rcases mem_boundary.mp hlmem with ⟨q, hq, hl | hl⟩
    · exfalso
      have h2 : q.2 ≤ bins.getLastD 0 :=
        hball _ (mem_boundary.mpr ⟨q, hq, Or.inr rfl⟩)
      rw [hl] at h2
      exact absurd h2 (not_le.mpr (hpos q hq))
    · exact ⟨q, hq, hl⟩
  · intro p hp
    exact hball _ (mem_boundary.mpr ⟨p, hp, Or.inr rfl⟩)

/-! ### Breakpoint-list facts, contiguous (flat) path -/

theorem flat_bins_pairwise : ∀ {se : List (ℚ × ℚ)}, flatB se = true →
    (∀ p ∈ se, p.1 < p.2) →
    (se.map Prod.fst ++ [(se.getLastD (0, 0)).2]).Pairwise (· < ·)
  | [], _, _ => by simp
  | [p], _, hpos => by simpa using hpos p (List.mem_singleton_self p)
  | p :: q :: r, hf, hpos => by
    have hf2 := hf
    simp only [flatB, Bool.and_eq_true, beq_iff_eq] at hf2
    obtain ⟨hpq, hfr⟩ := hf2
    have ih := flat_bins_pairwise hfr (fun x hx => hpos x (List.mem_cons_of_mem p hx))
    have hd : ((p :: q :: r).getLastD (0, 0)).2 = ((q :: r).getLastD (0, 0)).2 := by
      rw [List.getLastD_cons, List.getLastD_cons, List.getLastD_cons]
    have hsplit : (p :: q :: r).map Prod.fst ++ [((p :: q :: r).getLastD (0, 0)).2] =
        p.1 :: ((q :: r).map Prod.fst ++ [((q :: r).getLastD (0, 0)).2]) := by
      simp [hd]
    rw [hsplit]
    refine List.pairwise_cons.mpr ⟨?_, ih⟩
    intro x hx
    have hhead : ((q :: r).map Prod.fst ++ [((q :: r).getLastD (0, 0)).2]).headD 0 = q.1 := by
      simp
    have hxge : q.1 ≤ x := by
      rw [← hhead]
      exact pairwise_le_headD (ih.imp le_of_lt) hx 0
    have : p.1 < q.1 := hpq ▸ hpos p (List.mem_cons_self _ _)
    exact lt_of_lt_of_le this hxge

theorem flatB_getElem_eq {se : List (ℚ × ℚ)} (hf : flatB se = true) :
    ∀ i (hi : i + 1 < se.length), (se[i]).2 = (se[i+1]).1 := by
  have hc := flatB_iff.mp hf
  intro i hi
  have := List.chain'_iff_get.mp hc i (by omega)
  simpa [List.get_eq_getElem] using this

theorem flat_bins_getElem : ∀ {se : List (ℚ × ℚ)}, flatB se = true →
    ∀ i, (hi : i < se.length) →
      ((se.map Prod.fst ++ [(se.getLastD (0, 0)).2]).getD i 0 = (se[i]).1 ∧
       (se.map Prod.fst ++ [(se.getLastD (0, 0)).2]).getD (i+1) 0 = (se[i]).2)
  | [], _, i, hi => by simp at hi
  | [p], _, 0, hi => by simp [List.getD]
  | p :: q :: r, hf, i, hi => by
    have hf2 := hf
    simp only [flatB, Bool.and_eq_true, beq_iff_eq] at hf2
    obtain ⟨hpq, hfr⟩ := hf2
    have hd : ((p :: q :: r).getLastD (0, 0)).2 = ((q :: r).getLastD (0, 0)).2 := by
      rw [List.getLastD_cons, List.getLastD_cons, List.getLastD_cons]
    have hsplit : (p :: q :: r).map Prod.fst ++ [((p :: q :: r).getLastD (0, 0)).2] =
        p.1 :: ((q :: r).map Prod.fst ++ [((q :: r).getLastD (0, 0)).2]) := by
      simp [hd]
    cases i with
    | zero =>
      constructor
      · simp [hsplit]
      · have h0 := (flat_bins_getElem hfr 0 (by simp)).1
        rw [hsplit, List.getD_cons_succ, h0]
        simpa using hpq.symm
    | succ j =>
      have hj : j < (q :: r).length := by simpa using Nat.lt_of_succ_lt_succ hi
      have ihj := flat_bins_getElem hfr j hj
      constructor
      · rw [hsplit, List.getD_cons_succ]
        exact ihj.1
      · rw [hsplit, List.getD_cons_succ]
        exact ihj.2

/-! ### Tag-list characterisation -/

theorem getD_map_range {f : ℕ → β} {m i : ℕ} (h : i < m) (d : β) :
    ((List.range m).map f).getD i d = f i := by
  rw [List.getD_eq_getElem?_getD, List.getElem?_map, List.getElem?_range h]
  rfl

theorem getElem_le_of_le_indexOf {l : List ℚ} (h : l.Pairwise (· < ·)) {v : ℚ}
    (hv : v ∈ l) {k : ℕ} (hk : k < l.length) (hkle : k ≤ l.indexOf v) :
    l[k] ≤ v := by
  have hlt : l.indexOf v < l.length := List.indexOf_lt_length.mpr hv
  have hval : l[l.indexOf v] = v := List.getElem_indexOf hlt
  rcases lt_or_eq_of_le hkle with hlt2 | heq
  · exact le_of_lt (hval ▸ pairwise_lt_getElem h hk hlt hlt2)
  · subst heq
    exact le_of_eq hval

/-- A segment tags candidate bin `i` (i.e. the breakpoint index of its
start is `≤ i` and `i` is below the breakpoint index of its end) exactly
when the segment covers the bin `[bins[i], bins[i+1])`. -/
theorem tag_cond_iff {bins : List ℚ} (hb : bins.Pairwise (· < ·))
    {s e : ℚ} (hsmem : s ∈ bins) (hemem : e ∈ bins) {i : ℕ}
    (hi : i + 1 < bins.length) :
    (bins.indexOf s ≤ i ∧ i < bins.indexOf e) ↔
    (s ≤ bins[i] ∧ bins[i+1] ≤ e) := by
  constructor
  · rintro ⟨h1, h2⟩
    refine ⟨(indexOf_le_iff hb hsmem (by omega)).mp h1, ?_⟩
    have h3 : i + 1 ≤ bins.indexOf e := h2
    exact getElem_le_of_le_indexOf hb hemem hi h3
  · rintro ⟨h1, h2⟩
    refine ⟨(indexOf_le_iff hb hsmem (by omega)).mpr h1, ?_⟩
    rw [lt_indexOf_iff hb hemem (by omega)]
    exact lt_of_lt_of_le (pairwise_lt_getElem hb (by omega) hi (by omega)) h2

/-- In the general (overlapping) path, the tag list of candidate bin `i`
is non-empty iff some segment covers the bin. -/
theorem tags_general_ne_nil_iff {se : List (ℚ × ℚ)} {bins : List ℚ}
    {tags : List (List ℕ)}
    (hbins : bins = npUnique (se.flatMap fun p => [p.1, p.2]))
    (htags : tags = (List.range (bins.length - 1)).map fun i =>
       (List.range se.length).filter fun j =>
         bins.indexOf (se.getD j (0, 0)).1 ≤ i && i < bins.indexOf (se.getD j (0, 0)).2)
    {i : ℕ} (hi : i + 1 < bins.length) :
    (tags.getD i [] ≠ [] ↔
     ∃ j, ∃ hj : j < se.length,
       (se[j]).1 ≤ bins[i] ∧ bins[i+1] ≤ (se[j]).2) := by
  subst htags
  have hb : bins.Pairwise (· < ·) := hbins ▸ npUnique_pairwise _
  rw [getD_map_range (by omega) []]
  rw [Ne, List.filter_eq_nil_iff]
  push_neg
  constructor
  · rintro ⟨j, hjr, hcond⟩
    have hj : j < se.length := List.mem_range.mp hjr
    have hgd : se.getD j (0, 0) = se[j] := by
      rw [List.getD_eq_getElem?_getD, List.getElem?_eq_getElem hj]
      rfl
    rw [hgd] at hcond
    simp only [Bool.and_eq_true, decide_eq_true_eq] at hcond
    have hsmem : (se[j]).1 ∈ bins :=
      hbins ▸ mem_npUnique.mpr (mem_boundary.mpr ⟨_, List.getElem_mem hj, Or.inl rfl⟩)
    have hemem : (se[j]).2 ∈ bins :=
      hbins ▸ mem_npUnique.mpr (mem_boundary.mpr ⟨_, List.getElem_mem hj, Or.inr rfl⟩)
    exact ⟨j, hj, (tag_cond_iff hb hsmem hemem hi).mp hcond⟩
  · rintro ⟨j, hj, hcov⟩
    refine ⟨j, List.mem_range.mpr hj, ?_⟩
    have hgd : se.getD j (0, 0) = se[j] := by
      rw [List.getD_eq_getElem?_getD, List.getElem?_eq_getElem hj]
      rfl
    rw [hgd]
    simp only [Bool.and_eq_true, decide_eq_true_eq]
    have hsmem : (se[j]).1 ∈ bins :=
      hbins ▸ mem_npUnique.mpr (mem_boundary.mpr ⟨_, List.getElem_mem hj, Or.inl rfl⟩)
    have hemem : (se[j]).2 ∈ bins :=
      hbins ▸ mem_npUnique.mpr (mem_boundary.mpr ⟨_, List.getElem_mem hj, Or.inr rfl⟩)
    exact (tag_cond_iff hb hsmem hemem hi).mpr hcov

/-! ### Facts about the output of `_flattened_indices` -/

theorem getD_eq_getElem {l : List γ} {i : ℕ} (h : i < l.length) (d : γ) :
    l.getD i d = l[i] := by
  rw [List.getD_eq_getElem?_getD, List.getElem?_eq_getElem h]
  rfl

theorem flattened_flat {se : List (ℚ × ℚ)} (hf : flatB se = true) :
    flattenedIndices se =
      (se.map Prod.fst ++ [(se.getLastD (0, 0)).2],
       (List.range se.length).map fun i => [i]) := by
  rw [flattenedIndices, if_pos hf]

theorem flattened_general {se : List (ℚ × ℚ)} (hnf : flatB se = false) :
    flattenedIndices se =
      (npUnique (se.flatMap fun p => [p.1, p.2]),
       (List.range ((npUnique (se.flatMap fun p => [p.1, p.2])).length - 1)).map fun i =>
         (List.range se.length).filter fun j =>
           (npUnique (se.flatMap fun p => [p.1, p.2])).indexOf (se.getD j (0, 0)).1 ≤ i &&
             i < (npUnique (se.flatMap fun p => [p.1, p.2])).indexOf (se.getD j (0, 0)).2) := by
  rw [flattenedIndices, if_neg (by simp [hnf])]

theorem flattened_bins_pairwise {se : List (ℚ × ℚ)}
    (hpos : ∀ p ∈ se, p.1 < p.2) :
    (flattenedIndices se).1.Pairwise (· < ·) := by
  by_cases hf : flatB se = true
  · rw [flattened_flat hf]
    exact flat_bins_pairwise hf hpos
  · rw [flattened_general (Bool.not_eq_true _ ▸ hf)]
    exact npUnique_pairwise _

theorem flattened_bins_headD {se : List (ℚ × ℚ)} (hs : se.Pairwise segLe)
    (hpos : ∀ p ∈ se, p.1 < p.2) (hne : se ≠ []) :
    (flattenedIndices se).1.headD 0 = (se.headD (0, 0)).1 := by
  by_cases hf : flatB se = true
  · rw [flattened_flat hf]
    cases se with
    | nil => exact absurd rfl hne
    | cons p rest => simp
  · rw [flattened_general (Bool.not_eq_true _ ▸ hf)]
    exact bins_headD_general hs hpos hne

theorem flattened_bins_lastD {se : List (ℚ × ℚ)}
    (hpos : ∀ p ∈ se, p.1 < p.2) (hne : se ≠ []) :
    (∃ p ∈ se, (flattenedIndices se).1.getLastD 0 = p.2) ∧
    ∀ p ∈ se, p.2 ≤ (flattenedIndices se).1.getLastD 0 := by
  by_cases hf : flatB se = true
  · rw [flattened_flat hf]
    have hlast : (se.map Prod.fst ++ [(se.getLastD (0, 0)).2]).getLastD 0 =
        (se.getLastD (0, 0)).2 := List.getLastD_concat _ _ _
    constructor
    · exact ⟨se.getLastD (0, 0), getLastD_mem hne (0, 0), hlast⟩
    · intro p hp
      rw [hlast]
      rcases List.mem_iff_getElem.mp hp with ⟨i, hi, rfl⟩
      have h2 := (flat_bins_getElem hf i hi).2
      have hmem : (se[i]).2 ∈ se.map Prod.fst ++ [(se.getLastD (0, 0)).2] := by
        rw [← h2, getD_eq_getElem (by
          simp only [List.length_append, List.length_map, List.length_singleton]
          omega) 0]
        exact List.getElem_mem _
      have := pairwise_le_getLastD ((flat_bins_pairwise hf hpos).imp le_of_lt) hmem 0
      rwa [hlast] at this
  · rw [flattened_general (Bool.not_eq_true _ ▸ hf)]
    exact bins_lastD_general hpos hne

theorem flattened_tags_length {se : List (ℚ × ℚ)} (hne : se ≠ []) :
    (flattenedIndices se).2.length + 1 = (flattenedIndices se).1.length := by
  by_cases hf : flatB se = true
  · rw [flattened_flat hf]
    simp
  · rw [flattened_general (Bool.not_eq_true _ ▸ hf)]
    have hbne : npUnique (se.flatMap fun p => [p.1, p.2]) ≠ [] := by
      cases se with
      | nil => exact absurd rfl hne
      | cons p rest =>
        exact List.ne_nil_of_mem (mem_npUnique.mpr
          (mem_boundary.mpr ⟨p, List.mem_cons_self _ _, Or.inl rfl⟩))
    have : 0 < (npUnique (se.flatMap fun p => [p.1, p.2])).length :=
      List.length_pos.mpr hbne
    simp only [List.length_map, List.length_range]
    omega

theorem flattened_tags_ne_nil_iff (se : List (ℚ × ℚ)) :
    ∀ i, i + 1 < (flattenedIndices se).1.length →
      ((flattenedIndices se).2.getD i [] ≠ [] ↔
       ∃ j, j < se.length ∧
         (se.getD j (0, 0)).1 ≤ (flattenedIndices se).1.getD i 0 ∧
         (flattenedIndices se).1.getD (i + 1) 0 ≤ (se.getD j (0, 0)).2) := by
  intro i hi
  by_cases hf : flatB se = true
  · rw [flattened_flat hf] at hi ⊢
    simp only [List.length_append, List.length_map, List.length_singleton] at hi
    have hin : i < se.length := by omega
    dsimp only
    constructor
    · intro _
      refine ⟨i, hin, ?_, ?_⟩
      · rw [getD_eq_getElem (l := se) hin, (flat_bins_getElem hf i hin).1]
      · rw [getD_eq_getElem (l := se) hin, (flat_bins_getElem hf i hin).2]
    · intro _
      rw [getD_map_range hin []]
      simp
  · rw [flattened_general (Bool.not_eq_true _ ▸ hf)] at hi ⊢
    have hiff := tags_general_ne_nil_iff rfl rfl hi
    rw [hiff]
    constructor
    · rintro ⟨j, hj, h1, h2⟩
      refine ⟨j, hj, ?_, ?_⟩
      · rwa [getD_eq_getElem (l := se) hj, getD_eq_getElem (by omega) 0]
      · rwa [getD_eq_getElem (l := se) hj, getD_eq_getElem hi 0]
    · rintro ⟨j, hj, h1, h2⟩
      refine ⟨j, hj, ?_, ?_⟩
      · rwa [getD_eq_getElem (l := se) hj, getD_eq_getElem (by omega) 0] at h1
      · rwa [getD_eq_getElem (l := se) hj, getD_eq_getElem hi 0] at h2

theorem minStartVal_fresh {st : SL α} (hsr : st.sr = st.origSr)
    (hpos : 0 < st.origSr) : minStartVal st = st.minstartOrig := by
  unfold minStartVal
  rw [hsr, div_self (ne_of_gt hpos), mul_one]

/-- C2 (amended): for every validly constructed instance, the Flattener's
breakpoints are strictly increasing, start at `min_start` and end at the
maximum segment end (which can exceed the `max_end` accessor); consecutive
breakpoints partition `[min_start, max boundary)` into contiguous disjoint
bins (coverage and uniqueness below); and a bin's ordered tag list is
non-empty iff some segment covers the bin — so bins in gaps between
segments have an empty tag list. -/
theorem flattener_bins_partition {se0 : List (ℚ × ℚ)} {ls0 : List ℤ} {sr : ℚ}
    {st : SL ℤ} (hok : slInit se0 ls0 sr = .ok st) :
    (flattenedIndices (seVal st)).1.Pairwise (· < ·) ∧
    (flattenedIndices (seVal st)).1.headD 0 = minStartVal st ∧
    ((∃ p ∈ seVal st, (flattenedIndices (seVal st)).1.getLastD 0 = p.2) ∧
      ∀ p ∈ seVal st, p.2 ≤ (flattenedIndices (seVal st)).1.getLastD 0) ∧
    (flattenedIndices (seVal st)).2.length + 1 = (flattenedIndices (seVal st)).1.length ∧
    (∀ t : ℚ,
      ((flattenedIndices (seVal st)).1.headD 0 ≤ t ∧
       t < (flattenedIndices (seVal st)).1.getLastD 0) ↔
      ∃ i, i + 1 < (flattenedIndices (seVal st)).1.length ∧
        (flattenedIndices (seVal st)).1.getD i 0 ≤ t ∧
        t < (flattenedIndices (seVal st)).1.getD (i + 1) 0) ∧
    (∀ t : ℚ, ∀ i j : ℕ,
      i + 1 < (flattenedIndices (seVal st)).1.length →
      j + 1 < (flattenedIndices (seVal st)).1.length →
      (flattenedIndices (seVal st)).1.getD i 0 ≤ t →
      t < (flattenedIndices (seVal st)).1.getD (i + 1) 0 →
      (flattenedIndices (seVal st)).1.getD j 0 ≤ t →
      t < (flattenedIndices (seVal st)).1.getD (j + 1) 0 → i = j) ∧
    (∀ i, i + 1 < (flattenedIndices (seVal st)).1.length →
      ((flattenedIndices (seVal st)).2.getD i [] ≠ [] ↔
       ∃ j, j < (seVal st).length ∧
         ((seVal st).getD j (0, 0)).1 ≤ (flattenedIndices (seVal st)).1.getD i 0 ∧
         (flattenedIndices (seVal st)).1.getD (i + 1) 0 ≤ ((seVal st).getD j (0, 0)).2)) := by
  obtain ⟨-, -, ho, hsr, hm, -, -, hsrpos, -⟩ := slInit_ok hok
  have hse : seVal st = st.ses :=
    seVal_fresh hm (hsr.trans ho.symm) (ho ▸ hsrpos)
  rw [hse]
  have hs := slInit_ses_pairwise hok
  have hpos := slInit_ses_pos hok
  have hne := slInit_ses_ne_nil hok
  have hb := flattened_bins_pairwise hpos
  have hlen := flattened_tags_length hne
  have hbne : (flattenedIndices st.ses).1 ≠ [] :=
    List.length_pos.mp (by omega)
  refine ⟨hb, ?_, flattened_bins_lastD hpos hne, hlen, ?_, ?_, ?_⟩
  · rw [flattened_bins_headD hs hpos hne, minStartVal_fresh (hsr.trans ho.symm)
      (ho ▸ hsrpos), hm]
  · intro t
    constructor
    · rintro ⟨h1, h2⟩
      rcases partition_cover hb hbne h1 h2 with ⟨i, hi, hc1, hc2⟩
      exact ⟨i, hi, by rwa [getD_eq_getElem (by omega) 0],
        by rwa [getD_eq_getElem hi 0]⟩
    · rintro ⟨i, hi, h1, h2⟩
      rw [getD_eq_getElem (l := (flattenedIndices st.ses).1) (by omega) 0] at h1
      rw [getD_eq_getElem (l := (flattenedIndices st.ses).1) hi 0] at h2
      constructor
      · exact le_trans (pairwise_le_headD (hb.imp le_of_lt) (List.getElem_mem _) 0) h1
      · exact lt_of_lt_of_le h2
          (pairwise_le_getLastD (hb.imp le_of_lt) (List.getElem_mem _) 0)
  · intro t i j hi hj h1 h2 h3 h4
    rw [getD_eq_getElem (l := (flattenedIndices st.ses).1) (by omega) 0] at h1 h3
    rw [getD_eq_getElem (l := (flattenedIndices st.ses).1) hi 0] at h2
    rw [getD_eq_getElem (l := (flattenedIndices st.ses).1) hj 0] at h4
    exact partition_unique hb hi hj h1 h2 h3 h4
  · exact flattened_tags_ne_nil_iff st.ses

/-! ### Rounding lemmas and concrete instances -/

theorem npRound_mono (d : ℕ) {q r : ℚ} (h : q ≤ r) : npRound d q ≤ npRound d r := by
  have h10 : (0:ℚ) < 10 ^ d := by positivity
  have h1 : q * 10 ^ d + 1/2 ≤ r * 10 ^ d + 1/2 := by nlinarith
  have h2 : (⌊q * 10 ^ d + 1/2⌋ : ℤ) ≤ ⌊r * 10 ^ d + 1/2⌋ := Int.floor_le_floor h1
  unfold npRound
  gcongr

theorem roundIfArr_pairwise_le {b : Bool} {d : ℕ} {l : List ℚ}
    (h : l.Pairwise (· < ·)) : (roundIfArr b d l).Pairwise (· ≤ ·) := by
  unfold roundIfArr
  cases b with
  | false => simpa using h.imp le_of_lt
  | true =>
    simpa using List.pairwise_map.mpr (h.imp fun hlt => npRound_mono d (le_of_lt hlt))

theorem roundIfArr_ne_nil {b : Bool} {d : ℕ} {l : List ℚ} (h : l ≠ []) :
    roundIfArr b d l ≠ [] := by
  unfold roundIfArr
  cases b <;> simp [h]

theorem roundIfArr_singleton (b : Bool) (d : ℕ) (t : ℚ) :
    roundIfArr b d [t] = [roundIf b d t] := by
  unfold roundIfArr roundIf
  cases b <;> simp

/-- The overlapping worked example of the spec: `starts=[0,1,3,4.5]`,
`ends=[1,4.8,5,6]`, `labels=[1,0,2,1]`, rate 1 (already sorted). -/
def exSt4 : SL ℤ :=
  ⟨[(0, 1), (1, 24/5), (3, 5), (9/2, 6)], [1, 0, 2, 1], 1, 1, 0⟩

/-- The contiguous worked example of the spec: `starts=[0,1,3,4.5]`,
`ends=[1,3,4.5,6]`, `labels=[1,0,2,1]`, rate 1. -/
def exSt8 : SL ℤ :=
  ⟨[(0, 1), (1, 3), (3, 9/2), (9/2, 6)], [1, 0, 2, 1], 1, 1, 0⟩

/-- A valid but gapped and nested input: segments `[0,1]`, `[2,10]`,
`[3,4]`. -/
def exStGap : SL ℤ := ⟨[(0, 1), (2, 10), (3, 4)], [5, 6, 7], 1, 1, 0⟩

theorem bins_ne_nil_of_init {se0 : List (ℚ × ℚ)} {ls0 : List ℤ} {sr : ℚ}
    {st : SL ℤ} (hok : slInit se0 ls0 sr = .ok st) :
    (flattenedIndices (seVal st)).1 ≠ [] := by
  obtain ⟨-, -, ho, hsr, hm, -, -, hsrpos, -⟩ := slInit_ok hok
  have hse : seVal st = st.ses :=
    seVal_fresh hm (hsr.trans ho.symm) (ho ▸ hsrpos)
  rw [hse]
  have hlen := flattened_tags_length (slInit_ses_ne_nil hok)
  exact List.length_pos.mp (by omega)

/-- C3 (amended): on the base class, a query at or before the first
(rounded) breakpoint — i.e. at or before `min_start` — or strictly after
the last (rounded) breakpoint — the maximum segment end — yields the
caller-supplied `default_label` placeholder, not a computed label.
(A query exactly at the last breakpoint is in range; see the
counterexample.) -/
theorem labels_at_outside_default {se0 : List (ℚ × ℚ)} {ls0 : List ℤ} {sr : ℚ}
    {st : SL ℤ} {δ : Type} (d : δ)
    (hok : slInit se0 ls0 sr = .ok st) (t : ℚ)
    (hout :
      roundIf (!(isIntArr [t] && isIntArr (flattenedIndices (seVal st)).1)) 10 t ≤
        (roundIfArr (!(isIntArr [t] && isIntArr (flattenedIndices (seVal st)).1)) 10
          (flattenedIndices (seVal st)).1).headD 0 ∨
      (roundIfArr (!(isIntArr [t] && isIntArr (flattenedIndices (seVal st)).1)) 10
          (flattenedIndices (seVal st)).1).getLastD 0 <
        roundIf (!(isIntArr [t] && isIntArr (flattenedIndices (seVal st)).1)) 10 t) :
    labelsAtBase st (.batch [t]) d = [.deflt d] := by
  have hpos : ∀ p ∈ seVal st, p.1 < p.2 := by
    obtain ⟨-, -, ho, hsr, hm, -, -, hsrpos, -⟩ := slInit_ok hok
    rw [seVal_fresh hm (hsr.trans ho.symm) (ho ▸ hsrpos)]
    exact slInit_ses_pos hok
  have hb := flattened_bins_pairwise hpos
  have hbne := bins_ne_nil_of_init hok
  set dr := !(isIntArr [t] && isIntArr (flattenedIndices (seVal st)).1) with hdr
  have hrb := roundIfArr_pairwise_le (b := dr) (d := 10) hb
  have hrbne := roundIfArr_ne_nil (b := dr) (d := 10) hbne
  have hidx : searchLeft (roundIfArr dr 10 (flattenedIndices (seVal st)).1)
      (roundIf dr 10 t) = 0 ∨
      searchLeft (roundIfArr dr 10 (flattenedIndices (seVal st)).1)
        (roundIf dr 10 t) =
        (roundIfArr dr 10 (flattenedIndices (seVal st)).1).length := by
    rcases hout with h | h
    · exact Or.inl ((searchLeft_eq_zero_iff hrb hrbne).mpr h)
    · exact Or.inr ((searchLeft_eq_length_iff hrb hrbne).mpr h)
  simp only [labelsAtBase, EndsArg.toList]
  rw [roundIfArr_singleton]
  simp only [List.map_cons, List.map_nil]
  rw [← hdr]
  rw [if_neg ?hc]
  case hc =>
    push_neg
    intro h0
    rcases hidx with h | h
    · exact absurd h h0
    · exact h

/-! ### Concrete claim theorems and witnesses -/

unseal Rat.mul Rat.inv Rat.add Rat.sub in
/-- C1 (code bug): on the instance built from `starts_ends=[[1,5]]`,
`labels=[1]`, rate 1, entering `min_start_as(0)` and reading the
`starts_ends` property shifts the stored private array in place: after
the scope has exited, `_starts_ends` is `[[0,4]]`, not the original
`[[1,5]]` — contradicting the property's own docstring ("never
modified") and the claim that accessors leave the stored canonical
array unchanged. -/
theorem starts_ends_mutates_under_anchor_override :
    slInit [((1:ℚ), 5)] ([1] : List ℤ) 1 = .ok (SL.mk [(1, 5)] [1] 1 1 1) ∧
    (Act.exec (.msAs 0 none .readSE) (SL.mk [(1, 5)] ([1] : List ℤ) 1 1 1)).1 =
      SL.mk [(0, 4)] [1] 1 1 1 ∧
    (SL.mk [(0, 4)] ([1] : List ℤ) 1 1 1).ses ≠
      (SL.mk [(1, 5)] ([1] : List ℤ) 1 1 1).ses := by
  decide

unseal Rat.mul Rat.inv Rat.add Rat.sub in
/-- C4: on the overlapping example (`starts=[0,1,3,4.5]`,
`ends=[1,4.8,5,6]`, `labels=[1,0,2,1]`, rate 1), the base-class
`labels_at([0.5, 1, 3.4, 4.8, 5.5, 6])` returns exactly
`[(1,), (1,), (0,2), (0,2,1), (1,), (1,)]`: the tuple of labels of every
segment tagged to the bin containing each query, in the Flattener's
sorted-index order. -/
theorem labels_at_overlapping_example :
    slInit [(0, 1), (1, 24/5), (3, 5), ((9:ℚ)/2, 6)] ([1, 0, 2, 1] : List ℤ) 1 =
      .ok exSt4 ∧
    labelsAtBase exSt4 (.batch [1/2, 1, 17/5, 24/5, 11/2, 6]) () =
      [.tup [1], .tup [1], .tup [0, 2], .tup [0, 2, 1], .tup [1], .tup [1]] := by
  decide

unseal Rat.mul Rat.inv Rat.add Rat.sub in
/-- C2 counterexample: for the valid input `[[0,1],[2,10],[3,4]]` the
Flattener's bin between breakpoints 1 and 2 has an empty tag list, and
the breakpoints extend to 10 while `max_end` is 4 — so the bins neither
have all-non-empty tag sets nor partition `[min_start, max_end)`. -/
theorem flattener_bins_partition_counterexample :
    slInit [(0, 1), (2, 10), (3, 4)] ([5, 6, 7] : List ℤ) 1 = .ok exStGap ∧
    (flattenedIndices (seVal exStGap)).2 = [[0], [], [1], [1, 2], [1]] ∧
    maxEndVal exStGap = 4 ∧
    (flattenedIndices (seVal exStGap)).1 = [0, 1, 2, 3, 4, 10] := by
  decide

unseal Rat.mul Rat.inv Rat.add Rat.sub in
theorem flattener_bins_partition_witness :
    (flattenedIndices (seVal exStGap)).1.headD 0 = minStartVal exStGap ∧
    (flattenedIndices (seVal exStGap)).1.Pairwise (· < ·) := by
  have hok : slInit [(0, 1), (2, 10), (3, 4)] ([5, 6, 7] : List ℤ) 1 =
      .ok exStGap := by decide
  have h := flattener_bins_partition hok
  exact ⟨h.2.1, h.1⟩

unseal Rat.mul Rat.inv Rat.add Rat.sub in
/-- C3 counterexample: on the overlapping example, a query exactly at
`max_end = 6` does not yield the default placeholder: it lands in the
last bin and yields the computed tuple `(1,)`. -/
theorem labels_at_maxend_counterexample :
    slInit [(0, 1), (1, 24/5), (3, 5), ((9:ℚ)/2, 6)] ([1, 0, 2, 1] : List ℤ) 1 =
      .ok exSt4 ∧
    maxEndVal exSt4 = 6 ∧
    labelsAtBase exSt4 (.batch [6]) () = [.tup [1]] := by
  decide

unseal Rat.mul Rat.inv Rat.add Rat.sub in
theorem labels_at_outside_default_witness :
    labelsAtBase exSt4 (.batch [7]) () = [.deflt ()] ∧
    labelsAtBase exSt4 (.batch [0]) () = [.deflt ()] := by
  have hok : slInit [(0, 1), (1, 24/5), (3, 5), ((9:ℚ)/2, 6)]
      ([1, 0, 2, 1] : List ℤ) 1 = .ok exSt4 := by decide
  exact ⟨labels_at_outside_default () hok 7 (by decide),
    labels_at_outside_default () hok 0 (by decide)⟩

/-! ### Scope restoration (C5) -/

theorem startsEndsShift_fields (st : SL α) :
    (startsEndsShift st).sr = st.sr ∧
    (startsEndsShift st).minstartOrig = st.minstartOrig ∧
    (startsEndsShift st).origSr = st.origSr := by
  unfold startsEndsShift
  split
  · exact ⟨rfl, rfl, rfl⟩
  · split
    · exact ⟨rfl, rfl, rfl⟩
    · exact ⟨rfl, rfl, rfl⟩

/-- Every program built from accessor reads, probes, raises and the two
scoped overrides restores `_samplerate`, `_minstart_at_orig_sr` and
`_orig_samplerate` on exit — the `finally` blocks overwrite whatever the
body did, on every exit path. -/
theorem exec_fields (a : Act) : ∀ st : SL ℤ,
    (a.exec st).1.sr = st.sr ∧ (a.exec st).1.minstartOrig = st.minstartOrig ∧
    (a.exec st).1.origSr = st.origSr := by
  induction a with
  | readSE => intro st; exact startsEndsShift_fields st
  | probeSr => intro st; exact ⟨rfl, rfl, rfl⟩
  | probeMin => intro st; exact ⟨rfl, rfl, rfl⟩
  | raiseErr => intro st; exact ⟨rfl, rfl, rfl⟩
  | seq a b iha ihb =>
    intro st
    simp only [Act.exec]
    split
    · exact iha st
    · obtain ⟨ha1, ha2, ha3⟩ := iha st
      obtain ⟨hb1, hb2, hb3⟩ := ihb (a.exec st).1
      exact ⟨hb1.trans ha1, hb2.trans ha2, hb3.trans ha3⟩
  | srAs new body ih =>
    intro st
    simp only [Act.exec]
    split
    · exact ⟨rfl, rfl, rfl⟩
    · exact ⟨rfl, (ih _).2.1, (ih _).2.2⟩
  | msAs new rate body ih =>
    intro st
    simp only [Act.exec]
    split
    · exact ⟨rfl, rfl, rfl⟩
    · split
      · exact ⟨rfl, rfl, rfl⟩
      · exact ⟨rfl, rfl, (ih _).2.2⟩

/-- Triple nesting of `samplerate_as`, probing the effective rate inside
each level; the innermost level passes `None`. -/
def nestSr (r1 r2 : ℚ) : Act :=
  .srAs (some r1) (.seq .probeSr
    (.seq (.srAs (some r2) (.seq .probeSr (.srAs none .probeSr))) .probeSr))

/-- Nesting of `min_start_as` (at the current rate), probing `min_start`
inside each level. -/
def nestMs (m1 m2 : ℚ) : Act :=
  .msAs m1 none (.seq .probeMin (.seq (.msAs m2 none .probeMin) .probeMin))

/-- C5: (i) after any program — in particular any `samplerate_as` or
`min_start_as` scope around any body, including one that raises — the
instance's `samplerate` and `min_start` equal their pre-scope values;
(ii) under nested `samplerate_as` the innermost override wins, `None`
keeps the nearest enclosing override, and exiting an inner scope
restores the enclosing override, not the canonical rate; (iii) the same
nesting discipline holds for the `min_start_as` anchor. -/
theorem scoped_overrides_restore :
    (∀ (a : Act) (st : SL ℤ),
      (a.exec st).1.sr = st.sr ∧
      (a.exec st).1.minstartOrig = st.minstartOrig ∧
      minStartVal (a.exec st).1 = minStartVal st) ∧
    (∀ (st : SL ℤ) (r1 r2 : ℚ), 0 < r1 → 0 < r2 →
      ((nestSr r1 r2).exec st).2.1 = [r1, r2, r2, r1]) ∧
    (∀ (st : SL ℤ) (m1 m2 : ℚ), 0 < st.sr → 0 < st.origSr →
      ((nestMs m1 m2).exec st).2.1 = [m1, m2, m1]) := by
  refine ⟨?_, ?_, ?_⟩
  · intro a st
    obtain ⟨h1, h2, h3⟩ := exec_fields a st
    exact ⟨h1, h2, by unfold minStartVal; rw [h1, h2, h3]⟩
  · intro st r1 r2 h1 h2
    simp only [nestSr, Act.exec, Option.getD_some, Option.getD_none,
      not_le.mpr h1, not_le.mpr h2, if_neg, if_false]
    simp [not_le.mpr h1, not_le.mpr h2]
  · intro st m1 m2 hsr horig
    have hsr2 : ¬ st.sr ≤ 0 := not_le.mpr hsr
    have horig2 : ¬ st.origSr ≤ 0 := not_le.mpr horig
    simp only [nestMs, Act.exec, Option.getD_none, minStartVal]
    simp only [hsr2, horig2, if_false]
    simp only [List.cons_append, List.nil_append, List.cons.injEq, and_true]
    have hs : st.sr ≠ 0 := ne_of_gt hsr
    have ho : st.origSr ≠ 0 := ne_of_gt horig
    simp only [Bool.false_eq_true, if_false, List.cons_append, List.nil_append,
      List.cons.injEq, and_true]
    refine ⟨by field_simp, by field_simp, by field_simp⟩

unseal Rat.mul Rat.inv Rat.add Rat.sub in
theorem scoped_overrides_restore_witness :
    ((nestSr 2 3).exec (SL.mk [(1, 5)] ([1] : List ℤ) 1 1 1)).2.1 = [2, 3, 3, 2] ∧
    ((nestMs 5 7).exec (SL.mk [(1, 5)] ([1] : List ℤ) 1 1 1)).2.1 = [5, 7, 5] ∧
    ((Act.srAs (some 2) .raiseErr).exec
      (SL.mk [(1, 5)] ([1] : List ℤ) 1 1 1)).1.sr = 1 :=
  ⟨scoped_overrides_restore.2.1 (SL.mk [(1, 5)] ([1] : List ℤ) 1 1 1) 2 3
      (by norm_num) (by norm_num),
   scoped_overrides_restore.2.2 (SL.mk [(1, 5)] ([1] : List ℤ) 1 1 1) 5 7
      (by norm_num : (0:ℚ) < 1) (by norm_num : (0:ℚ) < 1),
   (scoped_overrides_restore.1 (.srAs (some 2) .raiseErr)
      (SL.mk [(1, 5)] ([1] : List ℤ) 1 1 1)).1⟩

/-! ### Rate conversion (C6) -/

theorem pmul_val (x y : PyNum) : (pmul x y).val = x.val * y.val := by
  cases x <;> cases y <;> simp [pmul, PyNum.val]

theorem ptdiv_val (x y : PyNum) : (ptdiv x y).val = x.val / y.val := rfl

theorem pfdiv_val (x y : PyNum) : (pfdiv x y).val = (⌊x.val / y.val⌋ : ℤ) := by
  cases x <;> cases y <;> simp [pfdiv, PyNum.val]

theorem pmod_val (x y : PyNum) :
    (pmod x y).val = x.val - y.val * (⌊x.val / y.val⌋ : ℤ) := by
  cases x <;> cases y <;> simp [pmod, PyNum.val]

theorem pmod_eq_zero_iff {r1 r2 : PyNum} (h : r1.val ≠ 0) :
    (pmod r2 r1).val = 0 ↔ ∃ k : ℤ, r2.val = k * r1.val := by
  rw [pmod_val, sub_eq_zero]
  constructor
  · intro he
    exact ⟨⌊r2.val / r1.val⌋, he.trans (mul_comm _ _)⟩
  · rintro ⟨k, hk⟩
    have hq : r2.val / r1.val = (k : ℚ) := by
      rw [hk, mul_div_assoc, div_self h, mul_one]
    rw [hq, Int.floor_intCast, hk]
    ring

/-- C6: `_convert_samplerate` is a pure function; it fails with
`InvalidRate` exactly when either rate is non-positive; it is the
identity when the rates are equal; when the target rate is an exact
positive integer multiple of the source rate it multiplies by the
integer quotient `to // from` (whose value is exactly `to / from`), so
the result stays an exact integer when the value and both rates are
ints dividing evenly; otherwise it multiplies by the float `to / from`.
In every successful case the value is `x * (to / from)`. -/
theorem convert_samplerate_spec (x r1 r2 : PyNum) :
    ((r1.val ≤ 0 ∨ r2.val ≤ 0) → convertSr x r1 r2 = .error .invalidRate) ∧
    (0 < r1.val → 0 < r2.val →
      ∃ y, convertSr x r1 r2 = .ok y ∧ y.val = x.val * (r2.val / r1.val)) ∧
    (0 < r1.val → r1.val = r2.val → convertSr x r1 r2 = .ok x) ∧
    (0 < r1.val → r1.val < r2.val → (∃ k : ℤ, r2.val = k * r1.val) →
      convertSr x r1 r2 = .ok (pmul x (pfdiv r2 r1)) ∧
      (pfdiv r2 r1).val = r2.val / r1.val) ∧
    (0 < r1.val → 0 < r2.val → r1.val ≠ r2.val → (¬ ∃ k : ℤ, r2.val = k * r1.val) →
      convertSr x r1 r2 = .ok (pmul x (ptdiv r2 r1))) ∧
    (∀ a b c : ℤ, x = .i a → r1 = .i b → r2 = .i c → 0 < b → 0 < c → b ∣ c →
      ∃ n : ℤ, convertSr x r1 r2 = .ok (.i n) ∧ (n : ℚ) = a * ((c : ℚ) / b)) := by
  have hne : ∀ {q : ℚ}, 0 < q → q ≠ 0 := fun h => ne_of_gt h
  refine ⟨?_, ?_, ?_, ?_, ?_, ?_⟩
  · intro h
    unfold convertSr
    rw [if_pos (by tauto)]
  · intro h1 h2
    unfold convertSr
    rw [if_neg (by push_neg; exact ⟨h2, h1⟩)]
    by_cases he : r2.val = r1.val
    · rw [if_pos (by simpa using he)]
      exact ⟨x, rfl, by rw [he, div_self (hne h1), mul_one]⟩
    · rw [if_neg (by simpa using he)]
      by_cases hm : r1.val < r2.val ∧ (pmod r2 r1).val = 0
      · rw [if_pos hm]
        refine ⟨_, rfl, ?_⟩
        rcases (pmod_eq_zero_iff (hne h1)).mp hm.2 with ⟨k, hk⟩
        have hq : r2.val / r1.val = (k : ℚ) := by
          rw [hk, mul_div_assoc, div_self (hne h1), mul_one]
        rw [pmul_val, pfdiv_val, hq, Int.floor_intCast]
      · rw [if_neg hm]
        exact ⟨_, rfl, by rw [pmul_val, ptdiv_val]⟩
  · intro h1 he
    unfold convertSr
    rw [if_neg (by push_neg; exact ⟨he ▸ h1, h1⟩), if_pos (by simpa using he.symm)]
  · intro h1 hlt hmul
    have h2 : 0 < r2.val := lt_trans h1 hlt
    constructor
    · unfold convertSr
      rw [if_neg (by push_neg; exact ⟨h2, h1⟩),
        if_neg (by simpa using ne_of_gt hlt),
        if_pos ⟨hlt, (pmod_eq_zero_iff (hne h1)).mpr hmul⟩]
    · rcases hmul with ⟨k, hk⟩
      have hq : r2.val / r1.val = (k : ℚ) := by
        rw [hk, mul_div_assoc, div_self (hne h1), mul_one]
      rw [pfdiv_val, hq, Int.floor_intCast]
  · intro h1 h2 hne2 hnm
    unfold convertSr
    rw [if_neg (by push_neg; exact ⟨h2, h1⟩), if_neg (by simpa using hne2.symm),
      if_neg (by rintro ⟨hlt, hmz⟩; exact hnm ((pmod_eq_zero_iff (hne h1)).mp hmz))]
  · rintro a b c rfl rfl rfl hb hc hbc
    obtain ⟨k, rfl⟩ := hbc
    have hk : 0 < k := by nlinarith
    have hbq : (0:ℚ) < (b : ℚ) := by exact_mod_cast hb
    have hbne2 : (b : ℚ) ≠ 0 := ne_of_gt hbq
    rcases eq_or_lt_of_le (by omega : (1:ℤ) ≤ k) with hk1 | hk2
    · have hkk : k = 1 := hk1.symm
      subst hkk
      rw [mul_one]
      refine ⟨a, ?_, ?_⟩
      · unfold convertSr
        rw [if_neg (by push_neg; exact ⟨hbq, hbq⟩), if_pos (beq_iff_eq.mpr rfl)]
      · rw [div_self hbne2, mul_one]
    · have hltZ : b < b * k := by nlinarith
      have hlt : (PyNum.i b).val < (PyNum.i (b * k)).val := by
        simp only [PyNum.val]
        exact_mod_cast hltZ
      have hmz : (pmod (.i (b * k)) (.i b)).val = 0 :=
        (pmod_eq_zero_iff (by simpa [PyNum.val] using hbne2)).mpr
          ⟨k, by simp [PyNum.val]; ring⟩
      have hfloor : (⌊((b * k : ℤ) : ℚ) / (b : ℚ)⌋ : ℤ) = k := by
        have he : ((b * k : ℤ) : ℚ) / (b : ℚ) = (k : ℚ) := by
          push_cast
          field_simp
        rw [he, Int.floor_intCast]
      refine ⟨a * k, ?_, ?_⟩
      · unfold convertSr
        rw [if_neg ?g3, if_neg ?g4, if_pos ⟨hlt, hmz⟩]
        case g3 =>
          push_neg
          constructor
          · show (0:ℚ) < (PyNum.i (b * k)).val
            simp only [PyNum.val]
            exact_mod_cast hc
          · exact hbq
        case g4 =>
          simp only [PyNum.val, beq_iff_eq]
          exact_mod_cast hltZ.ne'
        simp only [pmul, pfdiv, Except.ok.injEq, PyNum.i.injEq, PyNum.val]
        rw [hfloor]
      · push_cast
        field_simp

theorem convert_samplerate_spec_witness :
    convertSr (.i 3) (.i 2) (.i 4) = .ok (.i 6) ∧
    convertSr (.i 3) (.i 2) (.i 0) = .error .invalidRate := by
  constructor
  · rcases (convert_samplerate_spec (.i 3) (.i 2) (.i 4)).2.2.2.2.2 3 2 4 rfl rfl rfl
      (by norm_num) (by norm_num) ⟨2, by norm_num⟩ with ⟨n, hn, hv⟩
    have hv6 : (n : ℚ) = 6 := hv.trans (by norm_num)
    have hn6 : n = 6 := by exact_mod_cast hv6
    rwa [hn6] at hn
  · exact (convert_samplerate_spec (.i 3) (.i 2) (.i 0)).1
      (Or.inr (by simp [PyNum.val]))

/-! ### Contiguous construction (C7) -/

theorem slInit_reduces {α : Type} {se0 : List (ℚ × ℚ)} {ls0 : List α} {sr : ℚ}
    (hlen : se0.length = ls0.length) (hne : se0 ≠ []) (hsr : 0 < sr)
    (hpos : ∀ p ∈ se0, p.1 < p.2) :
    slInit se0 ls0 sr = .ok (SL.mk ((sortRows (se0.zip ls0)).map Prod.fst)
      ((sortRows (se0.zip ls0)).map Prod.snd) sr sr
      ((((sortRows (se0.zip ls0)).map Prod.fst).headD (0, 0)).1)) := by
  unfold slInit
  rw [if_neg (not_ne_iff.mpr hlen), if_neg (by simpa using hne),
    if_neg (not_le.mpr hsr), if_neg ?hany]
  case hany =>
    rw [Bool.not_eq_true, List.any_eq_false]
    intro p hp
    simp only [decide_eq_true_eq, not_le]
    linarith [hpos p hp]

/-- C7: constructing a `ContiguousSequenceLabels` from otherwise-valid
but non-contiguous input (some adjacent pair of the sorted segments has
`end ≠ next start`) fails with the contiguity violation, leaving no
instance; from contiguous input it succeeds, and the instance holds all
input segments with their own labels (the zipped rows are a permutation
of the zipped input), sorted and contiguous. -/
theorem contiguous_init_spec {se0 : List (ℚ × ℚ)} {ls0 : List ℤ} {sr : ℚ}
    (hlen : se0.length = ls0.length) (hne : se0 ≠ []) (hsr : 0 < sr)
    (hpos : ∀ p ∈ se0, p.1 < p.2) :
    (¬ ((sortRows (se0.zip ls0)).map Prod.fst).Chain' (fun p q => p.2 = q.1) →
      csInit se0 ls0 sr = .error .contiguityViolation) ∧
    (((sortRows (se0.zip ls0)).map Prod.fst).Chain' (fun p q => p.2 = q.1) →
      ∃ st : SL ℤ, csInit se0 ls0 sr = .ok st ∧
        (st.ses.zip st.labels).Perm (se0.zip ls0) ∧
        st.ses.Chain' (fun p q => p.2 = q.1) ∧ st.ses.Pairwise segLe) := by
  have hok := slInit_reduces (α := ℤ) hlen hne hsr hpos
  have hfresh : seVal (SL.mk ((sortRows (se0.zip ls0)).map Prod.fst)
      ((sortRows (se0.zip ls0)).map Prod.snd) sr sr
      ((((sortRows (se0.zip ls0)).map Prod.fst).headD (0, 0)).1)) =
      (sortRows (se0.zip ls0)).map Prod.fst :=
    seVal_fresh rfl rfl hsr
  constructor
  · intro hnc
    simp only [csInit, hok]
    rw [if_neg]
    rw [hfresh]
    intro hf
    exact hnc (flatB_iff.mp hf)
  · intro hc
    refine ⟨_, ?_, slInit_zip_perm hok, ?_, slInit_ses_pairwise hok⟩
    · simp only [csInit, hok]
      rw [if_pos]
      rw [hfresh]
      exact flatB_iff.mpr hc
    · exact hc

unseal Rat.mul Rat.inv Rat.add Rat.sub in
theorem contiguous_init_spec_witness :
    (∃ st : SL ℤ, csInit [((2:ℚ), 3), (0, 2)] [4, 5] 1 = .ok st ∧
       (st.ses.zip st.labels).Perm ([((2:ℚ), 3), (0, 2)].zip [4, 5]) ∧
       st.ses.Chain' (fun p q => p.2 = q.1) ∧ st.ses.Pairwise segLe) ∧
    csInit [((0:ℚ), 1), (2, 3)] ([4, 5] : List ℤ) 1 =
      .error .contiguityViolation := by
  have hsr1 : (0:ℚ) < 1 := by norm_num
  have hlen1 : ([((2:ℚ), 3), (0, 2)] : List (ℚ × ℚ)).length =
      ([4, 5] : List ℤ).length := by decide
  have hlen2 : ([((0:ℚ), 1), (2, 3)] : List (ℚ × ℚ)).length =
      ([4, 5] : List ℤ).length := by decide
  exact ⟨(contiguous_init_spec hlen1 (by decide) hsr1 (by decide)).2
      (flatB_iff.mp (by decide)),
    (contiguous_init_spec hlen2 (by decide) hsr1 (by decide)).1
      (fun hc => absurd (flatB_iff.mpr hc) (by decide))⟩

/-! ### Sort invariant (C9) and scalar wrapping (C10) -/

/-- C9: for every valid input, in any order, the constructed instance's
segments are sorted by start ascending with ties broken by end
ascending, and the labels are carried through the same permutation, so
the zipped `(segment, label)` rows of the instance are a permutation of
the zipped input rows (each segment keeps its own label). -/
theorem construction_sort_invariant {se0 : List (ℚ × ℚ)} {ls0 : List ℤ}
    {sr : ℚ} {st : SL ℤ} (hok : slInit se0 ls0 sr = .ok st) :
    st.ses.Pairwise segLe ∧ (st.ses.zip st.labels).Perm (se0.zip ls0) ∧
    st.labels.length = st.ses.length :=
  ⟨slInit_ses_pairwise hok, slInit_zip_perm hok, slInit_labels_length hok⟩

unseal Rat.mul Rat.inv Rat.add Rat.sub in
theorem construction_sort_invariant_witness :
    (SL.mk [((0:ℚ), 1), (3, 4)] ([8, 7] : List ℤ) 1 1 0).ses.Pairwise segLe ∧
    ((SL.mk [((0:ℚ), 1), (3, 4)] ([8, 7] : List ℤ) 1 1 0).ses.zip
      (SL.mk [((0:ℚ), 1), (3, 4)] ([8, 7] : List ℤ) 1 1 0).labels).Perm
      ([((3:ℚ), 4), (0, 1)].zip [7, 8]) := by
  have hok : slInit [((3:ℚ), 4), (0, 1)] ([7, 8] : List ℤ) 1 =
      .ok (SL.mk [((0:ℚ), 1), (3, 4)] ([8, 7] : List ℤ) 1 1 0) := by decide
  have h := construction_sort_invariant hok
  exact ⟨h.1, h.2.1⟩

/-- C10: a scalar, non-iterable query time is accepted by both
`labels_at` implementations: it is wrapped into a one-element batch, the
result equals that of the one-element batch call, and the result is a
length-1 sequence. -/
theorem labels_at_scalar_wrap :
    (∀ (st : SL ℤ) (t : ℚ) (δ : Type) (d : δ),
      labelsAtBase st (.scalar t) d = labelsAtBase st (.batch [t]) d ∧
      (labelsAtBase st (.scalar t) d).length = 1) ∧
    (∀ (st : SL ℤ) (t : ℚ) (δ : Type) (pol : CPolicy ℤ δ),
      contLabelsAt st (.scalar t) pol = contLabelsAt st (.batch [t]) pol ∧
      (contLabelsAt st (.scalar t) pol).map List.length =
        (contLabelsAt st (.scalar t) pol).map fun _ => 1) := by
  constructor
  · intro st t δ d
    refine ⟨rfl, ?_⟩
    simp only [labelsAtBase, EndsArg.toList]
    rw [roundIfArr_singleton]
    simp
  · intro st t δ pol
    refine ⟨rfl, ?_⟩
    simp only [contLabelsAt, EndsArg.toList]
    rw [roundIfArr_singleton]
    split
    · split <;> simp [Except.map]
    · simp [Except.map]

/-! ### Contiguous point query policies (C8) -/

theorem csInit_ok_elim {se0 : List (ℚ × ℚ)} {ls0 : List ℤ} {sr : ℚ} {st : SL ℤ}
    (h : csInit se0 ls0 sr = .ok st) :
    slInit se0 ls0 sr = .ok st ∧ flatB (seVal st) = true := by
  unfold csInit at h
  rcases he : slInit se0 ls0 sr with e | st2 <;> rw [he] at h
  · exact absurd h (by simp)
  · dsimp only at h
    by_cases hf : flatB (seVal st2) = true
    · rw [if_pos hf] at h
      cases h
      exact ⟨rfl, hf⟩
    · rw [if_neg hf] at h
      cases h

theorem contBins_eq {se0 : List (ℚ × ℚ)} {ls0 : List ℤ} {sr : ℚ} {st : SL ℤ}
    (hok : slInit se0 ls0 sr = .ok st) :
    contBins st = st.ses.map Prod.fst ++ [(st.ses.getLastD (0, 0)).2] := by
  obtain ⟨-, -, ho, hsr, hm, -, -, hsrpos, -⟩ := slInit_ok hok
  unfold contBins
  rw [seVal_fresh hm (hsr.trans ho.symm) (ho ▸ hsrpos)]

/-- C8 (amended): on a contiguous instance, the in-range interval of
`labels_at` is the left-open, right-closed `(min_start, max_end]` after
rounding: with `default='raise'` the query fails with the out-of-range
error iff some (rounded) query point is at or below the first breakpoint
(`min_start`) or strictly above the last (`max_end`); with
`default='zeros'` every out-of-range query yields `0` and every in-range
query yields the label of the bin containing it; and for strictly
increasing rounded breakpoints, a query with `bins[j] < t ≤ bins[j+1]`
resolves to index `j`, i.e. its own segment's label. -/
theorem contiguous_labels_at_policies {se0 : List (ℚ × ℚ)} {ls0 : List ℤ}
    {sr : ℚ} {st : SL ℤ} (δ : Type)
    (hok : csInit se0 ls0 sr = .ok st) (ends : List ℚ) :
    (contBins st).headD 0 = minStartVal st ∧
    (contBins st).getLastD 0 = maxEndVal st ∧
    (contLabelsAt st (.batch ends) (.raiseOut : CPolicy ℤ δ) =
        .error .outOfRange ↔
      ∃ t ∈ roundIfArr (contDr st ends) 10 ends,
        t ≤ (roundIfArr (contDr st ends) 10 (contBins st)).headD 0 ∨
        (roundIfArr (contDr st ends) 10 (contBins st)).getLastD 0 < t) ∧
    (contLabelsAt st (.batch ends) (.zeros : CPolicy ℤ δ) =
      .ok ((roundIfArr (contDr st ends) 10 ends).map fun t =>
        if searchLeft (roundIfArr (contDr st ends) 10 (contBins st)) t = 0 ∨
            searchLeft (roundIfArr (contDr st ends) 10 (contBins st)) t =
              (roundIfArr (contDr st ends) 10 (contBins st)).length
        then .lab 0
        else .lab (st.labels.getD
          (searchLeft (roundIfArr (contDr st ends) 10 (contBins st)) t - 1)
          default))) ∧
    ((roundIfArr (contDr st ends) 10 (contBins st)).Pairwise (· < ·) →
      ∀ (t : ℚ) (j : ℕ),
        j + 1 < (roundIfArr (contDr st ends) 10 (contBins st)).length →
        (roundIfArr (contDr st ends) 10 (contBins st)).getD j 0 < t →
        t ≤ (roundIfArr (contDr st ends) 10 (contBins st)).getD (j + 1) 0 →
        searchLeft (roundIfArr (contDr st ends) 10 (contBins st)) t = j + 1) := by
  obtain ⟨hsl, hflat⟩ := csInit_ok_elim hok
  obtain ⟨-, -, ho, hsr, hm, -, -, hsrpos, -⟩ := slInit_ok hsl
  have hse : seVal st = st.ses :=
    seVal_fresh hm (hsr.trans ho.symm) (ho ▸ hsrpos)
  have hflat2 : flatB st.ses = true := hse ▸ hflat
  have hpos : ∀ p ∈ st.ses, p.1 < p.2 := slInit_ses_pos hsl
  have hne : st.ses ≠ [] := slInit_ses_ne_nil hsl
  have hcb := contBins_eq hsl
  have hbp : (contBins st).Pairwise (· < ·) := by
    rw [hcb]
    exact flat_bins_pairwise hflat2 hpos
  have hbne : contBins st ≠ [] := by
    rw [hcb]
    simp
  have hrb := roundIfArr_pairwise_le (b := contDr st ends) (d := 10) hbp
  have hrbne := roundIfArr_ne_nil (b := contDr st ends) (d := 10) hbne
  refine ⟨?_, ?_, ?_, ?_, ?_⟩
  · rw [hcb]
    cases hs : st.ses with
    | nil => exact absurd hs hne
    | cons p rest =>
      rw [minStartVal_fresh (hsr.trans ho.symm) (ho ▸ hsrpos), hm, hs]
      simp
  · rw [hcb]
    unfold maxEndVal
    rw [hse, List.getLastD_concat]
  · simp only [contLabelsAt, EndsArg.toList]
    constructor
    · intro h
      by_cases hany : ((roundIfArr (contDr st ends) 10 ends).map
          (searchLeft (roundIfArr (contDr st ends) 10 (contBins st)))).any
          (fun ix => ix == 0 ||
            ix == (roundIfArr (contDr st ends) 10 (contBins st)).length) = true
      · rcases List.any_eq_true.mp hany with ⟨ix, hix, hp⟩
        rcases List.mem_map.mp hix with ⟨t, ht, rfl⟩
        refine ⟨t, ht, ?_⟩
        simp only [Bool.or_eq_true, beq_iff_eq] at hp
        rcases hp with hp | hp
        · exact Or.inl ((searchLeft_eq_zero_iff hrb hrbne).mp hp)
        · exact Or.inr ((searchLeft_eq_length_iff hrb hrbne).mp (by
            simpa [roundIfArr] using hp))
      · rw [if_neg (by simpa using hany)] at h
        cases h
    · rintro ⟨t, ht, hcond⟩
      rw [if_pos ?hany]
      case hany =>
        refine List.any_eq_true.mpr
          ⟨searchLeft (roundIfArr (contDr st ends) 10 (contBins st)) t,
           List.mem_map.mpr ⟨t, ht, rfl⟩, ?_⟩
        simp only [Bool.or_eq_true, beq_iff_eq]
        rcases hcond with hc | hc
        · exact Or.inl ((searchLeft_eq_zero_iff hrb hrbne).mpr hc)
        · exact Or.inr ((searchLeft_eq_length_iff hrb hrbne).mpr hc)
  · simp only [contLabelsAt, EndsArg.toList]
    by_cases hany : ((roundIfArr (contDr st ends) 10 ends).map
        (searchLeft (roundIfArr (contDr st ends) 10 (contBins st)))).any
        (fun ix => ix == 0 ||
          ix == (roundIfArr (contDr st ends) 10 (contBins st)).length) = true
    · rw [if_pos hany]
      rw [List.map_map]
      rfl
    · rw [if_neg (by simpa using hany)]
      rw [List.map_map]
      have hall := List.any_eq_false.mp (Bool.not_eq_true _ ▸ hany)
      refine congrArg Except.ok (List.map_congr_left ?_)
      intro t ht
      have hnot := hall _ (List.mem_map.mpr ⟨t, ht, rfl⟩)
      simp only [Bool.or_eq_true, beq_iff_eq, not_or] at hnot
      simp only [Function.comp]
      rw [if_neg (by push_neg; exact ⟨hnot.1, hnot.2⟩)]
  · intro hrbs t j hj h1 h2
    rw [getD_eq_getElem (by omega) 0] at h1
    rw [getD_eq_getElem hj 0] at h2
    exact searchLeft_eq_of_between hrbs hj h1 h2

unseal Rat.mul Rat.inv Rat.add Rat.sub in
/-- C8 counterexample: on the contiguous example with
`default='raise'`, a query exactly at `max_end = 6` — outside the
half-open `[min_start, max_end)` — does not raise but returns the last
segment's label, while a query exactly at `min_start = 0` — inside
`[min_start, max_end)` — raises. -/
theorem contiguous_labels_at_raise_counterexample :
    csInit [(0, 1), (1, 3), (3, (9:ℚ)/2), ((9:ℚ)/2, 6)] ([1, 0, 2, 1] : List ℤ) 1 =
      .ok exSt8 ∧
    maxEndVal exSt8 = 6 ∧ minStartVal exSt8 = 0 ∧
    contLabelsAt exSt8 (.batch [6]) (.raiseOut : CPolicy ℤ Unit) = .ok [.lab 1] ∧
    contLabelsAt exSt8 (.batch [0]) (.raiseOut : CPolicy ℤ Unit) =
      .error .outOfRange := by
  decide

unseal Rat.mul Rat.inv Rat.add Rat.sub in
theorem contiguous_labels_at_policies_witness :
    contLabelsAt exSt8 (.batch [-1]) (.raiseOut : CPolicy ℤ Unit) =
      .error .outOfRange ∧
    contLabelsAt exSt8 (.batch [-1]) (.zeros : CPolicy ℤ Unit) = .ok [.lab 0] := by
  have hok : csInit [(0, 1), (1, 3), (3, (9:ℚ)/2), ((9:ℚ)/2, 6)]
      ([1, 0, 2, 1] : List ℤ) 1 = .ok exSt8 := by decide
  have h := contiguous_labels_at_policies Unit hok [-1]
  refine ⟨h.2.2.1.mpr ⟨-1, by decide, by decide⟩, ?_⟩
  rw [h.2.2.2.1]
  decide

end Rennet
